import Mathlib

/-!
Verification of the DayByDay plan-generation-and-tracking subsystem
(`streamlit_app.py`).  Python strings are modelled as `List Char`;
Python's fallible indexing is modelled with `Except`.  Each definition
mirrors the corresponding function of the source file.
-/

namespace DayByDay

/-- Python strings, modelled as lists of characters. -/
abbrev Str := List Char

/-- Python whitespace characters recognised by `str.strip()` (ASCII range). -/
def pyIsSpace (c : Char) : Bool :=
  c == ' ' || c == '\t' || c == '\n' || c == '\r' || c == '\x0b' || c == '\x0c'

/-- Python `s.strip()`: remove whitespace from both ends. -/
def pyStrip (s : Str) : Str :=
  ((s.dropWhile pyIsSpace).reverse.dropWhile pyIsSpace).reverse

/-- Python `s.lower()` (ASCII case mapping, which is all the source compares against). -/
def lowerStr (s : Str) : Str :=
  s.map Char.toLower

/-- Boolean prefix test, Python `s.startswith(t)` is `isPre t s`. -/
def isPre : Str → Str → Bool
  | [], _ => true
  | _ :: _, [] => false
  | a :: as, b :: bs => a == b && isPre as bs

/-- Helper for Python `str.find`: index of the first match of `tok` in `s`, if any. -/
def findAux (tok : Str) : Str → Option Nat
  | [] => if tok.isEmpty then some 0 else none
  | c :: r => if isPre tok (c :: r) then some 0 else (findAux tok r).map (· + 1)

/-- Python `hay.find(tok, start)`; `none` models the `-1` result. -/
def pyFind (hay tok : Str) (start : Nat) : Option Nat :=
  (findAux tok (hay.drop start)).map (· + start)

/-- Python `str.splitlines` accumulator: `cur` holds the current line reversed;
the boundaries `\n`, `\r\n` and `\r` each terminate a line. -/
def splitlinesAux (cur : Str) : Str → List Str
  | [] => if cur.isEmpty then [] else [cur.reverse]
  | [c] =>
    if c == '\n' || c == '\r' then cur.reverse :: splitlinesAux [] []
    else splitlinesAux (c :: cur) []
  | c :: c2 :: r =>
    if c == '\n' then cur.reverse :: splitlinesAux [] (c2 :: r)
    else if c == '\r' then
      if c2 == '\n' then cur.reverse :: splitlinesAux [] r
      else cur.reverse :: splitlinesAux [] (c2 :: r)
    else splitlinesAux (c :: cur) (c2 :: r)

/-- Python `s.splitlines()` (for the line boundaries `\n`, `\r`, `\r\n`). -/
def pySplitlines (s : Str) : List Str :=
  splitlinesAux [] s

/-- Digits of a natural number, Python `str(i)` / f-string interpolation. -/
def natStr (i : Nat) : Str :=
  (toString i).toList

/-- The literal token `f"Day {i}"` searched by the parser. -/
def dayTok (i : Nat) : Str :=
  ("Day ").toList ++ natStr i

/-- One task record, Python dict `{"id": tid, "text": t, "done": False}`. -/
structure Task where
  id : Nat
  text : Str
  done : Bool
deriving DecidableEq, Repr

/-- The one runtime error the parser can raise (`l[1]` on a 1-character line). -/
inductive PyErr where
  | indexError
deriving DecidableEq, Repr

/-- Python `l.split(")", 1)[1]`: everything after the first occurrence of `c`. -/
def afterFirst (c : Char) : Str → Str
  | [] => []
  | x :: r => if x == c then r else afterFirst c r

/-- The task-text extraction of the parser's inner loop, applied to the
stripped line `l` (known non-empty when called).  Mirrors:
`if l.startswith("- "): ... elif l[0].isdigit() and (l[1] in ")."): ... else: t = l`.
Evaluating `l[1]` on a one-character line raises `IndexError`. -/
def extractT (l : Str) : Except PyErr Str :=
  if isPre (("- ").toList) l then .ok (pyStrip (l.drop 2))
  else
    match l with
    | [] => .ok []
    | c0 :: rest =>
      if c0.isDigit then
        match rest with
        | [] => .error .indexError
        | c1 :: _ =>
          if c1 == ')' || c1 == '.' then
            if l.contains ')' then .ok (pyStrip (afterFirst ')' l)) else .ok l
          else .ok l
      else .ok l

/-- The guard of the parser's inner loop:
`if l and not l.lower().startswith("day") and not l.lower().startswith("- goal")`. -/
def lineGuard (l : Str) : Bool :=
  !l.isEmpty && !isPre (("day").toList) (lowerStr l)
    && !isPre (("- goal").toList) (lowerStr l)

/-- The parser's inner loop over the lines of one day segment, threading the
shared task-id counter `tid`. -/
def procLines (tid : Nat) : List Str → Except PyErr (List Task × Nat)
  | [] => .ok ([], tid)
  | line :: rest =>
    let l := pyStrip line
    if lineGuard l then
      match extractT l with
      | .error e => .error e
      | .ok t =>
        if t.isEmpty then procLines tid rest
        else
          match procLines (tid + 1) rest with
          | .error e => .error e
          | .ok (ts, tid') => .ok (⟨tid, t, false⟩ :: ts, tid')
    else procLines tid rest

/-- Processing of one day segment `d`: `if not d: continue` else loop over lines. -/
def procDay (tid : Nat) (d : Str) : Except PyErr (List Task × Nat) :=
  if d.isEmpty then .ok ([], tid) else procLines tid (pySplitlines d)

/-- The parser's outer loop over the 8 day segments. -/
def procDays (tid : Nat) : List Str → Except PyErr (List (List Task))
  | [] => .ok []
  | d :: rest =>
    match procDay tid d with
    | .error e => .error e
    | .ok (ts, tid') =>
      match procDays tid' rest with
      | .error e => .error e
      | .ok parsed => .ok (ts :: parsed)

/-- The segment of day `i` (1-based): from the first occurrence of `Day i`
up to the first occurrence of `Day i+1` after it (or end of text), stripped.
Mirrors the first loop of `parse_plan_to_tasks`. -/
def daySeg (plan_text : Str) (i : Nat) : Str :=
  match pyFind plan_text (dayTok i) 0 with
  | none => []
  | some idx =>
    match pyFind plan_text (dayTok (i + 1)) (idx + 1) with
    | some e => pyStrip ((plan_text.drop idx).take (e - idx))
    | none => pyStrip (plan_text.drop idx)

/-- The dead-code tail of the parser: `while len(parsed) < 8: parsed.append([])`
then `parsed[:8]`. -/
def padTo8 (l : List (List Task)) : List (List Task) :=
  (l ++ List.replicate (8 - l.length) []).take 8

/-- `parse_plan_to_tasks` from the source, faithful to its control flow;
the `Except` layer carries the `IndexError` the inner loop can raise. -/
def parse_plan_to_tasks (plan_text : Str) : Except PyErr (List (List Task)) :=
  let days := (List.range 8).map (fun k => daySeg plan_text (k + 1))
  match procDays 0 days with
  | .error e => .error e
  | .ok parsed => .ok (padTo8 parsed)

/-- Total number of tasks over the 8 day lists. -/
def totalCount (tl : List (List Task)) : Nat :=
  (tl.map List.length).sum

/-- Number of tasks with `done == True` over the 8 day lists. -/
def doneCount (tl : List (List Task)) : Nat :=
  (tl.map (fun d => (d.filter (·.done)).length)).sum

/-- Python `int(q)` for `q ≥ 0` (truncation toward zero = floor on nonnegatives). -/
def pyIntTrunc (q : ℚ) : ℤ :=
  if 0 ≤ q then ⌊q⌋ else -⌊-q⌋

/-- `plan_progress_percent` from the source:
`int(done*100/total) if total else 0` (Python `/` is exact on these
integer ranges, so it is modelled as rational division). -/
def plan_progress_percent (tasks_lists : List (List Task)) : ℤ :=
  let total := totalCount tasks_lists
  let done := doneCount tasks_lists
  if total ≠ 0 then pyIntTrunc ((done * 100 : ℚ) / (total : ℚ)) else 0

/-! ## Plan generation (`call_ai`, `mock_generate_plan`, `generate_8day_plan`)

The external Gemini collaborator is modelled by an environment recording the
observable facts the source branches on: whether `GEMINI_API_KEY` is set,
whether the `google.generativeai` import succeeded, whether the module has a
`generate_text` attribute, and the outcome (returned text or raised
exception message) of each of the two calling conventions. -/

structure AIEnv where
  hasKey : Bool
  genaiInstalled : Bool
  hasGenText : Bool
  genTextOutcome : Except Str Str
  genModelOutcome : Except Str Str

/-- The literal `"ERROR_NO_API_KEY"`. -/
def errNoApiKey : Str :=
  ("ERROR_NO_API_KEY").toList

/-- First element of the `errors` list: `f"generate_text: {e}"`. -/
def genTextErrMsg (e : Str) : Str :=
  ("generate_text: ").toList ++ e

/-- Second element of the `errors` list: `f"GenerativeModel: {e}"`. -/
def genModelErrMsg (e : Str) : Str :=
  ("GenerativeModel: ").toList ++ e

/-- The `" | "` separator of `" | ".flatten(errors)`. -/
def sepBar : Str :=
  (" | ").toList

/-- `call_ai` from the source: returns `(ok, text)`.  On success the response
text is stripped; on failure the accumulated error messages are joined. -/
def call_ai (env : AIEnv) (_prompt : Str) (_max_tokens : Nat) : Bool × Str :=
  if !env.hasKey || !env.genaiInstalled then (false, errNoApiKey)
  else
    match env.hasGenText, env.genTextOutcome with
    | true, .ok t => (true, pyStrip t)
    | true, .error e =>
      match env.genModelOutcome with
      | .ok t2 => (true, pyStrip t2)
      | .error e2 => (false, genTextErrMsg e ++ sepBar ++ genModelErrMsg e2)
    | false, _ =>
      match env.genModelOutcome with
      | .ok t2 => (true, pyStrip t2)
      | .error e2 => (false, genModelErrMsg e2)

/-- One block of the fallback plan:
`f"Day {i}: Focus on part {i}\n- Tasks:\n  1) Do step A - 1h\n  2) Do step B - 2h\n\n"`. -/
def mockDayBlock (i : Nat) : Str :=
  dayTok i ++ (": Focus on part ").toList ++ natStr i
    ++ ("\n- Tasks:\n  1) Do step A - 1h\n  2) Do step B - 2h\n\n").toList

/-- The full fallback plan text (the loop `for i in range(1, 9)`). -/
def mockText : Str :=
  ((List.range 8).map (fun k => mockDayBlock (k + 1))).flatten

/-- `mock_generate_plan(title, constraints)`: ignores both arguments. -/
def mock_generate_plan (_title _constraints : Str) : Str :=
  mockText

/-- The prompt assembled by `generate_8day_plan` (pure concatenation; its
contents do not influence the modelled collaborator outcome). -/
def planPrompt (title constraints : Str) : Str :=
  ("You are DayBot... Generate an 8-day plan... Project title: ").toList
    ++ title ++ ("\nConstraints: ").toList ++ constraints

/-- `generate_8day_plan` from the source: on collaborator failure it records
the failure text in the `last_ai_error` slot and returns the mock plan;
on success the last-error slot is left unchanged.  It is a total function:
no failure escapes to the caller. -/
def generate_8day_plan (env : AIEnv) (title constraints : Str)
    (last_ai_error : Option Str) : Str × Option Str :=
  match call_ai env (planPrompt title constraints) 600 with
  | (true, text) => (text, last_ai_error)
  | (false, text) => (mock_generate_plan title constraints, some text)

/-- The `Day 1:` .. `Day 8:` structural contract of generated plan text. -/
def hasHeaders (s : Str) : Bool :=
  (List.range 8).all (fun k => (pyFind s (dayTok (k + 1) ++ [':']) 0).isSome)

/-! ## The project structure and its editing operations -/

/-- A project's task state: the 8 day-slots
(`"tasks": [[] for _ in range(8)]`).  The length invariant is part of the
representation, exactly as the source always allocates 8 lists. -/
structure Project where
  tasks : List (List Task)
  hlen : tasks.length = 8

theorem Project.ext_tasks : ∀ {p q : Project}, p.tasks = q.tasks → p = q
  | ⟨_, _⟩, ⟨_, _⟩, rfl => rfl

/-- The ids of one day's task list. -/
def idsOf (ts : List Task) : List Nat :=
  ts.map (·.id)

/-- `[tt["id"] for dd in st.session_state.project["tasks"] for tt in dd]`. -/
def allIds (p : Project) : List Nat :=
  (p.tasks.map idsOf).flatten

/-- Python `max` over a non-empty list of naturals. -/
def maxList (l : List Nat) : Nat :=
  l.foldr max 0

/-- `(max(all_ids) + 1) if all_ids else 0`: the freshly minted task id. -/
def newId (p : Project) : Nat :=
  if allIds p = [] then 0 else maxList (allIds p) + 1

/-- Day access `p.tasks[d]` (index valid by the length invariant). -/
def getDay (p : Project) (d : Fin 8) : List Task :=
  p.tasks.get ⟨d.val, by rw [p.hlen]; exact d.isLt⟩

/-- Day assignment `p.tasks[d] = day`. -/
def setDay (p : Project) (d : Fin 8) (day : List Task) : Project :=
  ⟨p.tasks.set d.val day, by rw [List.length_set]; exact p.hlen⟩

/-- The Add-task handler: reject whitespace-only text, otherwise append a
task with the freshly minted id and the stripped text. -/
def addTask (p : Project) (d : Fin 8) (txt : Str) : Project :=
  if pyStrip txt = [] then p
  else setDay p d (getDay p d ++ [⟨newId p, pyStrip txt, false⟩])

/-- The Remove handler: keep the tasks of day `d` whose id differs. -/
def removeTask (p : Project) (d : Fin 8) (tid : Nat) : Project :=
  setDay p d ((getDay p d).filter (fun t => t.id != tid))

/-- Characters stripped by `l.strip("- ")` in the Regenerate-Day handler. -/
def isDashSpace (c : Char) : Bool :=
  c == '-' || c == ' '

/-- `l.strip("- ")`: strip `-` and space characters from both ends. -/
def pyStripDashSpace (s : Str) : Str :=
  ((s.dropWhile isDashSpace).reverse.dropWhile isDashSpace).reverse

/-- `[l.strip("- ").strip() for l in resp.splitlines() if l.strip()]`. -/
def regenLines (resp : Str) : List Str :=
  ((pySplitlines resp).filter (fun l => !(pyStrip l).isEmpty)).map
    (fun l => pyStrip (pyStripDashSpace l))

/-- The fresh tasks minted from `lines[:6]`, ids continuing from `nid`. -/
def mintTasks (nid : Nat) (lines : List Str) : List Task :=
  lines.enum.map (fun kl => ⟨nid + kl.1, kl.2, false⟩)

/-- The Regenerate-Day handler: when the DayBot call succeeds (`ok`), replace
day `d` wholesale with at most 6 fresh tasks whose ids continue the
project-wide maximum; on failure nothing changes. -/
def regenerateDay (p : Project) (d : Fin 8) (ok : Bool) (resp : Str) : Project :=
  if ok then setDay p d (mintTasks (newId p) ((regenLines resp).take 6))
  else p

/-- One user-interface editing operation on the project. -/
inductive POp where
  | add (d : Fin 8) (txt : Str)
  | rem (d : Fin 8) (tid : Nat)
  | regen (d : Fin 8) (ok : Bool) (resp : Str)

/-- Apply one operation. -/
def applyOp (p : Project) : POp → Project
  | .add d txt => addTask p d txt
  | .rem d tid => removeTask p d tid
  | .regen d ok resp => regenerateDay p d ok resp

/-- Apply a finite sequence of operations, left to right. -/
def applyOps (p : Project) (ops : List POp) : Project :=
  ops.foldl applyOp p

/-! ## The durable-store write (`write_json`)

`write_json` opens the target with mode `"w"` — which truncates the file —
and then `json.dump` writes the serialised text.  The two observable file
system transitions are modelled as explicit steps so that an interruption
(executing only a prefix of the steps) can be examined.  The file system is
an association list from paths to contents; `data` is modelled by its
serialised text. -/

inductive FStep where
  | truncate (path : Str)
  | writeAll (path : Str) (content : Str)

/-- A file system snapshot: association list path ↦ content. -/
abbrev FS := List (Str × Str)

/-- Update (or create) the binding of `path`. -/
def fsSet (fs : FS) (path content : Str) : FS :=
  match fs with
  | [] => [(path, content)]
  | (q, c) :: rest =>
    if q = path then (q, content) :: rest else (q, c) :: fsSet rest path content

/-- Read the content of `path`, `none` when absent. -/
def fsGet (fs : FS) (path : Str) : Option Str :=
  match fs with
  | [] => none
  | (q, c) :: rest => if q = path then some c else fsGet rest path

/-- Apply one file-system step. -/
def applyStep (fs : FS) : FStep → FS
  | .truncate path => fsSet fs path []
  | .writeAll path content => fsSet fs path content

/-- Apply a sequence of steps. -/
def applySteps (fs : FS) (steps : List FStep) : FS :=
  steps.foldl applyStep fs

/-- The step trace of `write_json(path, data)`: `open(path, "w")` truncates
the target in place, then `json.dump` writes the serialised `data`.
There is no temporary file and no rename. -/
def write_json (path serialized : Str) : List FStep :=
  [.truncate path, .writeAll path serialized]

/-! ## Plain-text export (the Export TXT handler) -/

/-- The block the export loop emits for 1-based day `i`:
`f"Day {i}:\n"` then `f"- {tt['text']}\n"` per task, then `"\n"`. -/
def exportDayBlock (i : Nat) (day : List Task) : Str :=
  dayTok i ++ [':', '\n']
    ++ (day.map (fun t => ('-' :: ' ' :: t.text) ++ ['\n'])).flatten ++ ['\n']

/-- The export loop `for i, day in enumerate(tasks, start=1)`, accumulating
one block per day. -/
def exportFrom (i : Nat) : List (List Task) → Str
  | [] => []
  | day :: rest => exportDayBlock i day ++ exportFrom (i + 1) rest

/-- The Export TXT handler: the full exported text. -/
def exportTxt (tasks : List (List Task)) : Str :=
  exportFrom 1 tasks

/-! ## Spec-rule parser variants used by the refinement claims -/

/-- The `(day-number, offset)` pairs of the found `Day n` tokens, in numeric
order.  Modelled from the spec: step 1-2 of the PlanTextParser algorithm. -/
def foundDays (text : Str) : List (Nat × Nat) :=
  (List.range 8).filterMap
    (fun k => (pyFind text (dayTok (k + 1)) 0).map (fun off => (k + 1, off)))

/-- Insertion into a list sorted by offset (second component). -/
def insertByOff (x : Nat × Nat) : List (Nat × Nat) → List (Nat × Nat)
  | [] => [x]
  | y :: r => if x.2 ≤ y.2 then x :: y :: r else y :: insertByOff x r

/-- Insertion sort of the found pairs by character offset ascending.
Modelled from the spec: "Sort the found (day-number, offset) pairs by
offset ascending". -/
def sortByOff (l : List (Nat × Nat)) : List (Nat × Nat) :=
  l.foldr insertByOff []

/-- Segments by the spec's offset rule: each found day's segment runs from
its offset up to the offset of the next found day in file order, or to end
of text for the last one (stripped like the source's segments). -/
def segsOf (text : Str) : List (Nat × Nat) → List (Nat × Str)
  | [] => []
  | [(i, off)] => [(i, pyStrip (text.drop off))]
  | (i, off) :: (j, off2) :: r =>
    (i, pyStrip ((text.drop off).take (off2 - off))) :: segsOf text ((j, off2) :: r)

/-- PlanTextParser steps 1-4 modelled from the spec's offset-sort slicing
rule, composed with the source's task-extraction loop (steps 5-7), for
comparison against `parse_plan_to_tasks`.  (The spec's chunk fallback is
irrelevant to the inputs the comparison is made on.) -/
def parseOffsetRule (text : Str) : Except PyErr (List (List Task)) :=
  let segs := segsOf text (sortByOff (foundDays text))
  let days := (List.range 8).map (fun k => ((segs.lookup (k + 1)).getD []))
  match procDays 0 days with
  | .error e => .error e
  | .ok parsed => .ok (padTo8 parsed)

/-- A line is skipped by the parser's guard when, after stripping, it begins
case-insensitively with `day` or with `- goal`. -/
def skippedLine (line : Str) : Bool :=
  isPre (("day").toList) (lowerStr (pyStrip line))
    || isPre (("- goal").toList) (lowerStr (pyStrip line))

/-- Day processing with the guard-skipped lines deleted before extraction. -/
def procDayDrop (tid : Nat) (d : Str) : Except PyErr (List Task × Nat) :=
  if d.isEmpty then .ok ([], tid)
  else procLines tid ((pySplitlines d).filter (fun l => !skippedLine l))

/-- Outer loop over the day segments, dropping guard-skipped lines. -/
def procDaysDrop (tid : Nat) : List Str → Except PyErr (List (List Task))
  | [] => .ok []
  | d :: rest =>
    match procDayDrop tid d with
    | .error e => .error e
    | .ok (ts, tid') =>
      match procDaysDrop tid' rest with
      | .error e => .error e
      | .ok parsed => .ok (ts :: parsed)

/-- `parse_plan_to_tasks` with every guard-skipped line deleted from each
day segment before extraction — used to state that such lines contribute
nothing to the parse result. -/
def parse_drop_skipped (plan_text : Str) : Except PyErr (List (List Task)) :=
  let days := (List.range 8).map (fun k => daySeg plan_text (k + 1))
  match procDaysDrop 0 days with
  | .error e => .error e
  | .ok parsed => .ok (padTo8 parsed)

/-! ## Theorems -/

theorem doneCount_le_totalCount (tl : List (List Task)) :
    doneCount tl ≤ totalCount tl := by
  induction tl with
  | nil => simp [doneCount, totalCount]
  | cons d rest ih =>
    simp only [doneCount, totalCount, List.map_cons, List.sum_cons] at *
    exact Nat.add_le_add (List.length_filter_le _ _) ih

theorem plan_progress_percent_eq_natDiv (tl : List (List Task)) :
    plan_progress_percent tl = ((doneCount tl * 100) / totalCount tl : ℕ) := by
  by_cases h : totalCount tl = 0
  · simp [plan_progress_percent, h]
  · have hq : (0 : ℚ) ≤ (doneCount tl * 100 : ℚ) / (totalCount tl : ℚ) := by
      positivity
    have hfl : (⌊(doneCount tl * 100 : ℚ) / (totalCount tl : ℚ)⌋₊ : ℤ)
        = ⌊(doneCount tl * 100 : ℚ) / (totalCount tl : ℚ)⌋ :=
      Int.natCast_floor_eq_floor hq
    have hnd : ⌊(doneCount tl * 100 : ℚ) / (totalCount tl : ℚ)⌋₊
        = doneCount tl * 100 / totalCount tl := by
      have := Nat.floor_div_eq_div (α := ℚ) (doneCount tl * 100) (totalCount tl)
      rw [← this]
      norm_num
    simp only [plan_progress_percent, h, if_true, pyIntTrunc, hq, if_pos,
      ne_eq, not_false_iff]
    rw [← hfl, hnd]

/-- C6: the progress percentage is the floor of `done*100/total` (natural
floor division), is `0` when there are no tasks, and always lies in
`[0, 100]`; the computation is total (no division by zero is possible). -/
theorem progress_percent_spec (tl : List (List Task)) :
    plan_progress_percent tl = ((doneCount tl * 100) / totalCount tl : ℕ)
    ∧ 0 ≤ plan_progress_percent tl
    ∧ plan_progress_percent tl ≤ 100
    ∧ (totalCount tl = 0 → plan_progress_percent tl = 0) := by
  refine ⟨plan_progress_percent_eq_natDiv tl, ?_, ?_, ?_⟩
  · rw [plan_progress_percent_eq_natDiv tl]
    exact Int.natCast_nonneg _
  · rw [plan_progress_percent_eq_natDiv tl]
    have hb : doneCount tl * 100 / totalCount tl ≤ 100 := by
      by_cases h : totalCount tl = 0
      · simp [h]
      · calc doneCount tl * 100 / totalCount tl
            ≤ 100 * totalCount tl / totalCount tl := by
              apply Nat.div_le_div_right
              rw [Nat.mul_comm]
              exact Nat.mul_le_mul_left 100 (doneCount_le_totalCount tl)
          _ = 100 := Nat.mul_div_cancel _ (Nat.pos_of_ne_zero h)
    exact_mod_cast hb
  · intro h
    rw [plan_progress_percent_eq_natDiv tl, h]
    simp

/-! ### C9: the durable-store write is not atomic -/

theorem fsGet_fsSet (fs : FS) (p c : Str) : fsGet (fsSet fs p c) p = some c := by
  induction fs with
  | nil => simp [fsSet, fsGet]
  | cons head rest ih =>
    obtain ⟨q, c'⟩ := head
    by_cases hq : q = p
    · simp [fsSet, fsGet, hq]
    · simp [fsSet, fsGet, hq, ih]

/-- Concrete counterexample path and contents. -/
def fpathJson : Str := ("projects.json").toList

def oldSnapshot : Str := ("old snapshot").toList

def newSnapshot : Str := ("new snapshot").toList

/-- C9 counterexample: `write_json` has no temporary file and no rename;
interrupting it after its first step (the truncating `open(path, "w")`)
leaves the target empty, not the previously persisted snapshot. -/
theorem write_json_interrupt_cx :
    fsGet (applySteps [(fpathJson, oldSnapshot)]
        ((write_json fpathJson newSnapshot).take 1)) fpathJson = some []
    ∧ some ([] : Str) ≠ some oldSnapshot := by
  exact ⟨rfl, by decide⟩

/-- C9 amended: `write_json` overwrites the target in place — truncate, then
write.  A completed run leaves the new content; an interruption between the
truncation and the write leaves the target empty (so the previous snapshot
is destroyed, unlike a write-to-temporary-then-rename scheme). -/
theorem write_json_truncate_then_write (fs : FS) (path content : Str) :
    fsGet (applySteps fs (write_json path content)) path = some content
    ∧ fsGet (applySteps fs ((write_json path content).take 1)) path = some [] := by
  constructor
  · simp only [write_json, applySteps, List.foldl, applyStep]
    exact fsGet_fsSet _ _ _
  · simp only [write_json, applySteps, List.take, List.foldl, applyStep]
    exact fsGet_fsSet _ _ _

/-! ### C8: the parser is not total — a bare single-digit line raises -/

/-- The failing input for C8: a day segment containing the bare line `7`. -/
def c8input : Str := ("Day 1:\n7").toList

/-- C8: `parse_plan_to_tasks` does not return an 8-slot structure on every
input: on `"Day 1:\n7"` the inner loop evaluates `l[1]` on the
one-character line `"7"` and raises `IndexError`. -/
theorem parse_raises_on_bare_digit_line :
    parse_plan_to_tasks c8input = .error .indexError := by
  rfl

/-! ### C5: generation failure falls back to the mock plan -/

set_option maxRecDepth 40000 in
/-- C5: whenever the collaborator call fails (no credential, module missing,
or both calling conventions raising), `generate_8day_plan` returns the
deterministic mock plan — which satisfies the `Day 1:`..`Day 8:` header
contract — and records the failure text in the last-error slot; being a
total function, it raises nothing to its caller. -/
theorem generate_fallback_spec (env : AIEnv) (title constraints : Str)
    (last_err : Option Str)
    (hfail : (call_ai env (planPrompt title constraints) 600).1 = false) :
    generate_8day_plan env title constraints last_err
      = (mock_generate_plan title constraints,
         some (call_ai env (planPrompt title constraints) 600).2)
    ∧ hasHeaders (mock_generate_plan title constraints) = true
    ∧ (generate_8day_plan env title constraints last_err).2 ≠ none := by
  have hmock : hasHeaders mockText = true := by decide
  rcases hc : call_ai env (planPrompt title constraints) 600 with ⟨b, t⟩
  rw [hc] at hfail
  simp only at hfail
  subst hfail
  refine ⟨?_, hmock, ?_⟩
  · simp [generate_8day_plan, hc]
  · simp [generate_8day_plan, hc]

/-- C5 witness: with no API key configured the call fails, so the fallback
contract of `generate_fallback_spec` holds at this concrete environment. -/
def envNoKey : AIEnv :=
  ⟨false, false, false, .error [], .error []⟩

theorem generate_fallback_witness :
    (call_ai envNoKey (planPrompt [] []) 600).1 = false
    ∧ (generate_8day_plan envNoKey [] [] none
        = (mock_generate_plan [] [],
           some (call_ai envNoKey (planPrompt [] []) 600).2)
      ∧ hasHeaders (mock_generate_plan [] []) = true
      ∧ (generate_8day_plan envNoKey [] [] none).2 ≠ none) :=
  ⟨rfl, generate_fallback_spec envNoKey [] [] none rfl⟩

/-! ### C1: with zero `Day n` tokens the parser has no chunk fallback -/

/-- 16 non-blank one-character lines, containing no `Day` token. -/
def cx16 : Str := ("a\nb\nc\nd\ne\nf\ng\nh\ni\nj\nk\nl\nm\nn\no\np").toList

/-- C1 counterexample: on 16 non-blank lines with no `Day` tokens the parser
returns 8 *empty* day-slots — there is no even-chunking fallback, so the
claimed "8 day-slots of 2 lines each, none empty" is false. -/
theorem parse_sixteen_lines_no_chunking :
    parse_plan_to_tasks cx16 = .ok (List.replicate 8 [])
    ∧ ((List.replicate 8 ([] : List Task)).all (fun d => !d.isEmpty)) = false :=
  ⟨rfl, rfl⟩

theorem procDays_replicate_nil (n : Nat) (tid : Nat) :
    procDays tid (List.replicate n []) = .ok (List.replicate n []) := by
  induction n generalizing tid with
  | zero => rfl
  | succ m ih => simp [List.replicate, procDays, procDay, ih]

/-- C1 amended: for every plan text in which none of the tokens `Day 1` ..
`Day 8` occurs, the parser returns 8 empty day-slots (the code has no
fallback segmentation). -/
theorem parse_no_day_tokens_all_empty (text : Str)
    (h : ∀ i ∈ Finset.Icc 1 8, pyFind text (dayTok i) 0 = none) :
    parse_plan_to_tasks text = .ok (List.replicate 8 []) := by
  have hdays : (List.range 8).map (fun k => daySeg text (k + 1))
      = List.replicate 8 [] := by
    rw [List.eq_replicate_iff]
    refine ⟨by simp, ?_⟩
    intro b hb
    obtain ⟨k, hk, rfl⟩ := List.mem_map.mp hb
    have hk8 : k < 8 := List.mem_range.mp hk
    have hnone := h (k + 1) (Finset.mem_Icc.mpr (by omega))
    simp [daySeg, hnone]
  simp only [parse_plan_to_tasks, hdays, procDays_replicate_nil]
  rfl

/-- C1 witness: the hypotheses of `parse_no_day_tokens_all_empty` hold at the
concrete 16-line input. -/
theorem parse_no_day_tokens_witness :
    (∀ i ∈ Finset.Icc 1 8, pyFind cx16 (dayTok i) 0 = none)
    ∧ parse_plan_to_tasks cx16 = .ok (List.replicate 8 []) :=
  ⟨by decide, parse_no_day_tokens_all_empty cx16 (by decide)⟩

/-! ### C10: guard-skipped lines contribute nothing -/

theorem procLines_filter_skipped (lines : List Str) (tid : Nat) :
    procLines tid (lines.filter (fun l => !skippedLine l)) = procLines tid lines := by
  induction lines generalizing tid with
  | nil => rfl
  | cons line rest ih =>
    by_cases hs : skippedLine line = true
    · have hguard : lineGuard (pyStrip line) = false := by
        simp only [skippedLine, Bool.or_eq_true] at hs
        rcases hs with hd | hg
        · unfold lineGuard
          rw [hd]
          simp
        · unfold lineGuard
          rw [hg]
          simp
      simp [List.filter_cons, hs, procLines, hguard, ih]
    · simp only [List.filter_cons, Bool.not_eq_true', hs]
      simp only [Bool.not_false, if_true, procLines, ih]

theorem procDayDrop_eq_procDay (tid : Nat) (d : Str) :
    procDayDrop tid d = procDay tid d := by
  simp [procDayDrop, procDay, procLines_filter_skipped]

theorem procDaysDrop_eq_procDays (days : List Str) (tid : Nat) :
    procDaysDrop tid days = procDays tid days := by
  induction days generalizing tid with
  | nil => rfl
  | cons d rest ih => simp [procDaysDrop, procDays, procDayDrop_eq_procDay, ih]

/-- C10: no task ever originates from a line that, after stripping, begins
case-insensitively with `day` or with `- goal` — deleting every such line
from every day segment leaves the parse result (including a potential
`IndexError`) unchanged, so such lines are always skipped; in particular a
bare task line starting with `Day` is silently dropped. -/
theorem parse_ignores_skipped_lines (plan_text : Str) :
    parse_plan_to_tasks plan_text = parse_drop_skipped plan_text := by
  simp [parse_plan_to_tasks, parse_drop_skipped, procDaysDrop_eq_procDays]

/-! ### C7: `addTask` then `removeTask` with the fresh id restores the day -/

theorem set_get_self (l : List (List Task)) (i : Nat) (h : i < l.length) :
    l.set i (l.get ⟨i, h⟩) = l := by
  induction l generalizing i with
  | nil => rfl
  | cons x xs ih =>
    cases i with
    | zero => rfl
    | succ j =>
      simp only [List.set, List.get, List.cons.injEq, true_and]
      exact ih j (Nat.lt_of_succ_lt_succ h)

theorem tasks_decomp (p : Project) (d : Fin 8) :
    p.tasks = p.tasks.take d.val ++ getDay p d :: p.tasks.drop (d.val + 1) := by
  have h : d.val < p.tasks.length := by rw [p.hlen]; exact d.isLt
  conv_lhs => rw [← set_get_self p.tasks d.val h]
  rw [List.set_eq_take_cons_drop _ h]
  rfl

theorem allIds_eq (p : Project) (d : Fin 8) :
    allIds p = ((p.tasks.take d.val).map idsOf).flatten ++ idsOf (getDay p d)
      ++ ((p.tasks.drop (d.val + 1)).map idsOf).flatten := by
  unfold allIds
  conv_lhs => rw [tasks_decomp p d]
  simp [List.append_assoc]

theorem allIds_setDay (p : Project) (d : Fin 8) (L : List Task) :
    allIds (setDay p d L)
      = ((p.tasks.take d.val).map idsOf).flatten ++ idsOf L
        ++ ((p.tasks.drop (d.val + 1)).map idsOf).flatten := by
  have h : d.val < p.tasks.length := by rw [p.hlen]; exact d.isLt
  unfold allIds setDay
  simp only
  rw [List.set_eq_take_cons_drop _ h]
  simp [List.append_assoc]

theorem mem_allIds_of_mem_getDay {p : Project} {d : Fin 8} {t : Task}
    (ht : t ∈ getDay p d) : t.id ∈ allIds p := by
  rw [allIds_eq p d]
  have : t.id ∈ idsOf (getDay p d) := List.mem_map.mpr ⟨t, ht, rfl⟩
  simp [List.mem_append, this]

theorem le_maxList {x : Nat} {l : List Nat} (hx : x ∈ l) : x ≤ maxList l := by
  induction l with
  | nil => cases hx
  | cons a r ih =>
    rcases List.mem_cons.mp hx with rfl | hr
    · exact Nat.le_max_left _ _
    · exact Nat.le_trans (ih hr) (Nat.le_max_right _ _)

theorem lt_newId {p : Project} {x : Nat} (hx : x ∈ allIds p) : x < newId p := by
  have hne : allIds p ≠ [] := List.ne_nil_of_mem hx
  unfold newId
  rw [if_neg hne]
  exact Nat.lt_succ_of_le (le_maxList hx)

/-- C7: for every project, day and non-whitespace text, adding a task (which
mints id `max existing + 1`, or `0` when none exist) and then removing that
freshly minted id restores the project — in particular that day's task
sequence — exactly. -/
theorem add_then_remove_restores (p : Project) (d : Fin 8) (txt : Str)
    (h : pyStrip txt ≠ []) :
    removeTask (addTask p d txt) d (newId p) = p := by
  apply Project.ext_tasks
  have hlt : d.val < p.tasks.length := by rw [p.hlen]; exact d.isLt
  unfold addTask
  rw [if_neg h]
  unfold removeTask
  have hget : getDay (setDay p d (getDay p d ++ [Task.mk (newId p) (pyStrip txt) false])) d
      = getDay p d ++ [Task.mk (newId p) (pyStrip txt) false] := by
    unfold getDay setDay
    exact List.get_set_eq _
  rw [hget]
  have hfil : (getDay p d ++ [Task.mk (newId p) (pyStrip txt) false]).filter
      (fun t => t.id != newId p) = getDay p d := by
    rw [List.filter_append]
    have h1 : (getDay p d).filter (fun t => t.id != newId p) = getDay p d := by
      apply List.filter_eq_self.mpr
      intro t ht
      simp only [bne_iff_ne, ne_eq]
      exact Nat.ne_of_lt (lt_newId (mem_allIds_of_mem_getDay ht))
    have h2 : List.filter (fun t => t.id != newId p)
        [Task.mk (newId p) (pyStrip txt) false] = [] := by simp
    rw [h1, h2, List.append_nil]
  rw [hfil]
  show ((p.tasks.set d.val _).set d.val (getDay p d)) = p.tasks
  rw [List.set_set]
  exact set_get_self p.tasks d.val hlt

/-- The empty project: 8 empty day-slots. -/
def emptyProject : Project :=
  ⟨List.replicate 8 [], rfl⟩

/-- C7 witness: the restore property at a concrete project, day and text. -/
theorem add_then_remove_witness :
    pyStrip (("x").toList) ≠ []
    ∧ removeTask (addTask emptyProject 0 (("x").toList)) 0 (newId emptyProject)
        = emptyProject :=
  ⟨by decide, add_then_remove_restores emptyProject 0 (("x").toList) (by decide)⟩

/-! ### C4: id uniqueness is preserved by add/remove/regenerate -/

theorem nodup_mid_insert {A M B : List Nat} {n : Nat}
    (h : (A ++ M ++ B).Nodup) (hn : n ∉ A ++ M ++ B) :
    (A ++ (M ++ [n]) ++ B).Nodup := by
  have hperm : (A ++ (M ++ [n]) ++ B).Perm (n :: (A ++ M ++ B)) := by
    have h1 : A ++ (M ++ [n]) ++ B = (A ++ M) ++ n :: B := by
      simp [List.append_assoc]
    have h2 : ((A ++ M) ++ n :: B).Perm (n :: ((A ++ M) ++ B)) := List.perm_middle
    rw [h1, List.append_assoc] at *
    exact h2
  exact hperm.nodup_iff.mpr (List.nodup_cons.mpr ⟨hn, h⟩)

theorem nodup_mid_replace {A M B N : List Nat}
    (h : (A ++ M ++ B).Nodup) (hN : N.Nodup)
    (hdisj : ∀ x ∈ N, x ∉ A ++ M ++ B) :
    (A ++ N ++ B).Nodup := by
  have hsub : (A ++ B).Sublist (A ++ M ++ B) := by
    rw [List.append_assoc]
    exact (List.sublist_append_right M B).append_left A
  have hAB : (A ++ B).Nodup := hsub.nodup h
  have hperm : (A ++ N ++ B).Perm (N ++ (A ++ B)) := by
    have h1 : ((A ++ N) ++ B).Perm ((N ++ A) ++ B) :=
      List.perm_append_comm.append_right B
    simpa [List.append_assoc] using h1
  apply hperm.nodup_iff.mpr
  apply List.nodup_append.mpr
  refine ⟨hN, hAB, ?_⟩
  intro x hxN hxAB
  exact hdisj x hxN (hsub.subset hxAB)

theorem nodup_allIds_addTask (p : Project) (d : Fin 8) (txt : Str)
    (h : (allIds p).Nodup) : (allIds (addTask p d txt)).Nodup := by
  unfold addTask
  by_cases hs : pyStrip txt = []
  · rw [if_pos hs]; exact h
  · rw [if_neg hs, allIds_setDay]
    have hids : idsOf (getDay p d ++ [Task.mk (newId p) (pyStrip txt) false])
        = idsOf (getDay p d) ++ [newId p] := by
      simp [idsOf]
    rw [hids]
    apply nodup_mid_insert
    · rw [← allIds_eq p d]; exact h
    · rw [← allIds_eq p d]
      intro hmem
      exact Nat.lt_irrefl _ (lt_newId hmem)

theorem nodup_allIds_removeTask (p : Project) (d : Fin 8) (tid : Nat)
    (h : (allIds p).Nodup) : (allIds (removeTask p d tid)).Nodup := by
  unfold removeTask
  rw [allIds_setDay]
  have hf : (idsOf ((getDay p d).filter (fun t => t.id != tid))).Sublist
      (idsOf (getDay p d)) :=
    (List.filter_sublist _).map _
  have hsub : (((p.tasks.take d.val).map idsOf).flatten
        ++ idsOf ((getDay p d).filter (fun t => t.id != tid))
        ++ ((p.tasks.drop (d.val + 1)).map idsOf).flatten).Sublist (allIds p) := by
    rw [allIds_eq p d, List.append_assoc, List.append_assoc]
    exact (hf.append_right _).append_left _
  exact hsub.nodup h

theorem idsOf_mintTasks (nid : Nat) (ls : List Str) :
    idsOf (mintTasks nid ls) = (List.range ls.length).map (nid + ·) := by
  simp only [idsOf, mintTasks, List.map_map]
  rw [List.enum_eq_zip_range]
  have hlen : (List.range ls.length).length ≤ ls.length := by simp
  calc ((List.range ls.length).zip ls).map ((fun t => t.id) ∘ fun kl =>
          Task.mk (nid + kl.1) kl.2 false)
      = ((List.range ls.length).zip ls).map ((fun k => nid + k) ∘ Prod.fst) := rfl
    _ = (((List.range ls.length).zip ls).map Prod.fst).map (fun k => nid + k) := by
        rw [List.map_map]
    _ = (List.range ls.length).map (nid + ·) := by
        rw [List.map_fst_zip _ _ hlen]

theorem nodup_allIds_regenerateDay (p : Project) (d : Fin 8) (ok : Bool)
    (resp : Str) (h : (allIds p).Nodup) :
    (allIds (regenerateDay p d ok resp)).Nodup := by
  unfold regenerateDay
  cases ok with
  | false => exact h
  | true =>
    rw [if_pos rfl, allIds_setDay, idsOf_mintTasks]
    apply nodup_mid_replace
    · rw [← allIds_eq p d]; exact h
    · apply List.Nodup.map
      · intro a b hab
        exact Nat.add_left_cancel hab
      · exact List.nodup_range _
    · intro x hx
      rw [← allIds_eq p d]
      intro hmem
      obtain ⟨k, _, rfl⟩ := List.mem_map.mp hx
      have hlt := lt_newId hmem
      omega

/-- C4: applied to a project whose task ids are pairwise distinct across all
8 day-slots, every finite sequence of `addTask` / `removeTask` /
`regenerateDay` operations keeps them pairwise distinct (after every
operation, since every prefix of the sequence is also such a sequence). -/
theorem ops_preserve_distinct_ids (ops : List POp) (p : Project)
    (h : (allIds p).Nodup) : (allIds (applyOps p ops)).Nodup := by
  induction ops generalizing p with
  | nil => exact h
  | cons op rest ih =>
    have hstep : (allIds (applyOp p op)).Nodup := by
      cases op with
      | add d txt => exact nodup_allIds_addTask p d txt h
      | rem d tid => exact nodup_allIds_removeTask p d tid h
      | regen d ok resp => exact nodup_allIds_regenerateDay p d ok resp h
    simpa [applyOps, List.foldl] using ih (applyOp p op) hstep

/-- C4 witness: a concrete operation sequence on the empty project. -/
theorem ops_preserve_distinct_ids_witness :
    (allIds emptyProject).Nodup
    ∧ (allIds (applyOps emptyProject
        [.add 0 (("a").toList), .add 1 (("b").toList),
         .regen 0 true (("x\ny").toList), .rem 1 1])).Nodup :=
  ⟨by decide, ops_preserve_distinct_ids _ emptyProject (by decide)⟩

/-! ### Occurrence machinery for `pyFind` (used by C2 and C3) -/

/-- `tok` occurs in `hay` at character offset `p`. -/
def occAt (hay tok : Str) (p : Nat) : Prop :=
  isPre tok (hay.drop p) = true

theorem isPre_iff_exists {a b : Str} : isPre a b = true ↔ ∃ c, b = a ++ c := by
  induction a generalizing b with
  | nil => simp [isPre]
  | cons x xs ih =>
    cases b with
    | nil => simp [isPre]
    | cons y ys =>
      simp only [isPre, Bool.and_eq_true, beq_iff_eq, ih, List.cons_append,
        List.cons.injEq]
      constructor
      · rintro ⟨rfl, c, rfl⟩
        exact ⟨c, rfl, rfl⟩
      · rintro ⟨c, rfl, rfl⟩
        exact ⟨rfl, c, rfl⟩

theorem isPre_self_append (a c : Str) : isPre a (a ++ c) = true :=
  isPre_iff_exists.mpr ⟨c, rfl⟩

theorem isPre_append_of {a b : Str} (h : isPre a b = true) (c : Str) :
    isPre a (b ++ c) = true := by
  obtain ⟨d, rfl⟩ := isPre_iff_exists.mp h
  rw [List.append_assoc]
  exact isPre_self_append a (d ++ c)

theorem isPre_length {a b : Str} (h : isPre a b = true) : a.length ≤ b.length := by
  obtain ⟨d, rfl⟩ := isPre_iff_exists.mp h
  simp

theorem isPre_of_append_left {tok X Y : Str} (h : isPre tok (X ++ Y) = true)
    (hlen : tok.length ≤ X.length) : isPre tok X = true := by
  induction tok generalizing X with
  | nil => simp [isPre]
  | cons t ts ih =>
    cases X with
    | nil => simp at hlen
    | cons x xs =>
      simp only [List.cons_append, isPre, Bool.and_eq_true] at h ⊢
      exact ⟨h.1, ih h.2 (Nat.le_of_succ_le_succ hlen)⟩

theorem occAt_length {hay tok : Str} {p : Nat} (htok : tok ≠ [])
    (h : occAt hay tok p) : p + tok.length ≤ hay.length := by
  unfold occAt at h
  have hl := isPre_length h
  simp only [List.length_drop] at hl
  by_cases hp : p ≤ hay.length
  · omega
  · rw [List.drop_eq_nil_of_le (by omega)] at h
    cases tok with
    | nil => exact absurd rfl htok
    | cons t ts => simp [isPre] at h

theorem findAux_some {tok s : Str} {p : Nat} (h : findAux tok s = some p) :
    isPre tok (s.drop p) = true ∧ ∀ q < p, isPre tok (s.drop q) = false := by
  induction s generalizing p with
  | nil =>
    simp only [findAux] at h
    by_cases ht : tok.isEmpty
    · rw [if_pos ht] at h
      cases h
      rw [List.isEmpty_iff.mp ht]
      exact ⟨rfl, by omega⟩
    · rw [if_neg ht] at h
      cases h
  | cons c r ih =>
    simp only [findAux] at h
    by_cases hc : isPre tok (c :: r) = true
    · rw [if_pos hc] at h
      cases h
      exact ⟨hc, by omega⟩
    · rw [if_neg hc] at h
      simp only [Option.map_eq_some'] at h
      obtain ⟨p', hp', rfl⟩ := h
      obtain ⟨h1, h2⟩ := ih hp'
      refine ⟨h1, ?_⟩
      intro q hq
      cases q with
      | zero =>
        rw [List.drop_zero]
        exact Bool.eq_false_iff.mpr hc
      | succ q' => exact h2 q' (Nat.lt_of_succ_lt_succ hq)

theorem findAux_none {tok s : Str} (h : findAux tok s = none) :
    ∀ q, isPre tok (s.drop q) = false := by
  induction s with
  | nil =>
    intro q
    simp only [findAux] at h
    by_cases ht : tok.isEmpty
    · rw [if_pos ht] at h; cases h
    · cases tok with
      | nil => simp [List.isEmpty] at ht
      | cons t ts => simp [isPre]
  | cons c r ih =>
    intro q
    simp only [findAux] at h
    by_cases hc : isPre tok (c :: r) = true
    · rw [if_pos hc] at h; cases h
    · rw [if_neg hc] at h
      simp only [Option.map_eq_none'] at h
      cases q with
      | zero => simpa using hc
      | succ q' => exact ih h q'

theorem findAux_some_of {tok s : Str} {p : Nat}
    (h1 : isPre tok (s.drop p) = true)
    (h2 : ∀ q < p, isPre tok (s.drop q) = false) :
    findAux tok s = some p := by
  induction s generalizing p with
  | nil =>
    have hp : p = 0 := by
      by_contra hne
      have := h2 0 (Nat.pos_of_ne_zero hne)
      rw [List.drop_nil] at this h1
      rw [h1] at this
      cases this
    subst hp
    rw [List.drop_nil] at h1
    cases tok with
    | nil => rfl
    | cons t ts => simp [isPre] at h1
  | cons c r ih =>
    cases p with
    | zero =>
      rw [List.drop_zero] at h1
      simp [findAux, h1]
    | succ p' =>
      have hc : isPre tok (c :: r) = false := by
        have := h2 0 (Nat.succ_pos p')
        simpa using this
      simp only [findAux, hc, Bool.false_eq_true, if_false]
      have hr : findAux tok r = some p' := by
        apply ih
        · simpa using h1
        · intro q hq
          have := h2 (q + 1) (Nat.succ_lt_succ hq)
          simpa using this
      rw [hr]
      rfl

theorem findAux_none_of {tok s : Str}
    (h : ∀ q, isPre tok (s.drop q) = false) :
    findAux tok s = none := by
  induction s with
  | nil =>
    have h0 := h 0
    rw [List.drop_nil] at h0
    cases tok with
    | nil => simp [isPre] at h0
    | cons t ts => simp [findAux, List.isEmpty]
  | cons c r ih =>
    have hc := h 0
    rw [List.drop_zero] at hc
    simp only [findAux, hc, Bool.false_eq_true, if_false]
    rw [ih]
    · rfl
    · intro q
      simpa using h (q + 1)

theorem pyFind_some {hay tok : Str} {st m : Nat}
    (h : pyFind hay tok st = some m) :
    st ≤ m ∧ occAt hay tok m ∧ ∀ q, st ≤ q → q < m → ¬ occAt hay tok q := by
  simp only [pyFind, Option.map_eq_some'] at h
  obtain ⟨p, hp, rfl⟩ := h
  obtain ⟨h1, h2⟩ := findAux_some hp
  rw [List.drop_drop] at h1
  refine ⟨Nat.le_add_left st p, by rwa [occAt, Nat.add_comm], ?_⟩
  intro q hq1 hq2 hocc
  have := h2 (q - st) (by omega)
  rw [List.drop_drop] at this
  rw [occAt] at hocc
  have heq : st + (q - st) = q := by omega
  rw [heq] at this
  rw [hocc] at this
  cases this

theorem pyFind_some_of {hay tok : Str} {st m : Nat} (hm : st ≤ m)
    (h1 : occAt hay tok m)
    (h2 : ∀ q, st ≤ q → q < m → ¬ occAt hay tok q) :
    pyFind hay tok st = some m := by
  simp only [pyFind, Option.map_eq_some']
  refine ⟨m - st, ?_, by omega⟩
  apply findAux_some_of
  · rw [List.drop_drop]
    have heq : st + (m - st) = m := by omega
    rw [heq]
    exact h1
  · intro q hq
    rw [List.drop_drop]
    rw [← Bool.not_eq_true]
    exact fun hx => h2 (st + q) (Nat.le_add_right st q) (by omega) hx

theorem pyFind_none {hay tok : Str} {st : Nat}
    (h : pyFind hay tok st = none) :
    ∀ q, st ≤ q → ¬ occAt hay tok q := by
  simp only [pyFind, Option.map_eq_none'] at h
  intro q hq hocc
  have := findAux_none h (q - st)
  rw [List.drop_drop] at this
  have heq : st + (q - st) = q := by omega
  rw [heq] at this
  rw [occAt] at hocc
  rw [hocc] at this
  cases this

theorem pyFind_none_of {hay tok : Str} {st : Nat}
    (h : ∀ q, st ≤ q → ¬ occAt hay tok q) :
    pyFind hay tok st = none := by
  simp only [pyFind, Option.map_eq_none']
  apply findAux_none_of
  intro q
  rw [List.drop_drop, ← Bool.not_eq_true]
  exact fun hx => h (st + q) (Nat.le_add_right st q) hx

theorem pyFind_mono {hay tok : Str} {m st : Nat}
    (h : pyFind hay tok 0 = some m) (hst : st ≤ m) :
    pyFind hay tok st = some m := by
  obtain ⟨_, h1, h2⟩ := pyFind_some h
  exact pyFind_some_of hst h1 (fun q hq1 hq2 => h2 q (Nat.zero_le q) hq2)

theorem pyFind_none_from {hay tok : Str} (h : pyFind hay tok 0 = none)
    (st : Nat) : pyFind hay tok st = none := by
  apply pyFind_none_of
  intro q hq
  exact pyFind_none h q (Nat.zero_le q)

/-- No occurrence of `tok` anywhere in `s`. -/
def noOcc (s tok : Str) : Prop :=
  ∀ p, ¬ occAt s tok p

theorem noOcc_iff_pyFind_none {s tok : Str} :
    noOcc s tok ↔ pyFind s tok 0 = none := by
  constructor
  · intro h
    exact pyFind_none_of (fun q _ => h q)
  · intro h p
    exact pyFind_none h p (Nat.zero_le p)

theorem noOcc_of_forall_lt {s tok : Str} (htok : tok ≠ [])
    (h : ∀ p < s.length, isPre tok (s.drop p) = false) : noOcc s tok := by
  intro p hocc
  by_cases hp : p < s.length
  · rw [occAt, h p hp] at hocc
    cases hocc
  · rw [occAt, List.drop_eq_nil_of_le (by omega)] at hocc
    cases tok with
    | nil => exact htok rfl
    | cons t ts => simp [isPre] at hocc

/-! ### Newline-terminated line decompositions -/

/-- Concatenation of newline-terminated lines. -/
def joinNl (lines : List Str) : Str :=
  (lines.map (· ++ ['\n'])).flatten

theorem joinNl_nil : joinNl [] = [] := rfl

theorem joinNl_cons (l : Str) (rest : List Str) :
    joinNl (l :: rest) = (l ++ ['\n']) ++ joinNl rest := by
  simp [joinNl]

theorem joinNl_append (xs ys : List Str) :
    joinNl (xs ++ ys) = joinNl xs ++ joinNl ys := by
  simp [joinNl]

/-- A token without newline cannot straddle the final `\n` of a line block:
an occurrence in `(l ++ "\n") ++ R` lies inside `l` or inside `R`. -/
theorem occ_append_nl_split {l R tok : Str} {p : Nat} (htok : tok ≠ [])
    (hnl : '\n' ∉ tok) (h : occAt ((l ++ ['\n']) ++ R) tok p) :
    occAt l tok p ∨ ((l.length + 1 ≤ p) ∧ occAt R tok (p - (l.length + 1))) := by
  by_cases hp : l.length + 1 ≤ p
  · right
    refine ⟨hp, ?_⟩
    unfold occAt at h ⊢
    rw [List.drop_append_eq_append_drop,
      List.drop_eq_nil_of_le (by simp; omega)] at h
    simpa using h
  · left
    unfold occAt at h ⊢
    rw [List.append_assoc, List.singleton_append,
      List.drop_append_eq_append_drop] at h
    have hz : p - l.length = 0 := by omega
    rw [hz, List.drop_zero] at h
    by_cases hlen : tok.length ≤ (l.drop p).length
    · exact isPre_of_append_left h hlen
    · exfalso
      obtain ⟨c, hc⟩ := isPre_iff_exists.mp h
      have hidx : (tok ++ c)[(l.drop p).length]? = some '\n' := by
        rw [← hc, List.getElem?_append_right (Nat.le_refl _)]
        simp
      rw [List.getElem?_append] at hidx
      rw [if_pos (by omega)] at hidx
      exact hnl (List.getElem?_mem hidx)

/-- Skipping over a run of newline-terminated lines that contain no
occurrence of the token. -/
theorem occ_joinNl_split : ∀ (lines : List Str) {R tok : Str} {p : Nat},
    tok ≠ [] → '\n' ∉ tok → (∀ l ∈ lines, noOcc l tok) →
    occAt (joinNl lines ++ R) tok p →
    (joinNl lines).length ≤ p ∧ occAt R tok (p - (joinNl lines).length) := by
  intro lines
  induction lines with
  | nil =>
    intro R tok p _ _ _ h
    rw [joinNl_nil, List.nil_append] at h
    rw [joinNl_nil]
    exact ⟨Nat.zero_le p, by simpa using h⟩
  | cons l rest ih =>
    intro R tok p htok hnl hno h
    rw [joinNl_cons, List.append_assoc] at h
    rcases occ_append_nl_split htok hnl h with hl | ⟨hge, hr⟩
    · exact absurd hl (hno l (List.mem_cons_self l rest) p)
    · obtain ⟨hge2, hocc⟩ :=
        ih htok hnl (fun x hx => hno x (List.mem_cons_of_mem l hx)) hr
      rw [joinNl_cons]
      constructor
      · simp only [List.length_append, List.length_singleton]
        omega
      · rw [Nat.sub_sub] at hocc
        have harith : ((l ++ ['\n']) ++ joinNl rest).length
            = l.length + 1 + (joinNl rest).length := by
          simp only [List.length_append, List.length_singleton]
        rw [harith]
        exact hocc

/-- `find` over a prefix of token-free newline-terminated lines shifts by the
length of that prefix. -/
theorem pyFind_skip (lines : List Str) (R tok : Str) (htok : tok ≠ [])
    (hnl : '\n' ∉ tok) (hno : ∀ l ∈ lines, noOcc l tok) :
    pyFind (joinNl lines ++ R) tok 0
      = (pyFind R tok 0).map (· + (joinNl lines).length) := by
  cases hfy : pyFind R tok 0 with
  | none =>
    simp only [Option.map_none']
    apply pyFind_none_of
    intro q _ hocc
    obtain ⟨hge, hr⟩ := occ_joinNl_split lines htok hnl hno hocc
    exact pyFind_none hfy _ (Nat.zero_le _) hr
  | some m =>
    obtain ⟨-, h1, h2⟩ := pyFind_some hfy
    simp only [Option.map_some']
    apply pyFind_some_of (Nat.zero_le _)
    · unfold occAt at h1 ⊢
      rw [List.drop_append_eq_append_drop,
        List.drop_eq_nil_of_le (by omega), List.nil_append]
      have harith : m + (joinNl lines).length - (joinNl lines).length = m := by
        omega
      rw [harith]
      exact h1
    · intro q hq0 hqlt hocc
      obtain ⟨hge, hr⟩ := occ_joinNl_split lines htok hnl hno hocc
      exact h2 (q - (joinNl lines).length) (Nat.zero_le _) (by omega) hr

/-! ### Per-line absence of `Day` tokens -/

theorem noOcc_nil {tok : Str} (htok : tok ≠ []) : noOcc [] tok := by
  intro p hocc
  unfold occAt at hocc
  rw [List.drop_nil] at hocc
  cases tok with
  | nil => exact htok rfl
  | cons t ts => simp [isPre] at hocc

theorem dayTok_head (i : Nat) :
    dayTok i = 'D' :: ('a' :: 'y' :: ' ' :: natStr i) := rfl

theorem dayTok_ne_nil (i : Nat) : dayTok i ≠ [] := by
  rw [dayTok_head]
  exact List.cons_ne_nil _ _

theorem dayTok_no_nl : ∀ i ∈ Finset.Icc 1 9, '\n' ∉ dayTok i := by decide

theorem header_noOcc_bounded :
    ∀ i ∈ Finset.Icc 1 9, ∀ j ∈ Finset.Icc 1 8, i ≠ j →
      ∀ p ∈ List.range (dayTok j ++ [':']).length,
        isPre (dayTok i) ((dayTok j ++ [':']).drop p) = false := by
  decide

theorem header_noOcc {i j : Nat} (hi : i ∈ Finset.Icc 1 9)
    (hj : j ∈ Finset.Icc 1 8) (hne : i ≠ j) :
    noOcc (dayTok j ++ [':']) (dayTok i) := by
  apply noOcc_of_forall_lt (dayTok_ne_nil i)
  intro p hp
  exact header_noOcc_bounded i hi j hj hne p (List.mem_range.mpr hp)

theorem bullet_noOcc {t : Str} {i : Nat} (hnot : noOcc t (dayTok i)) :
    noOcc ('-' :: ' ' :: t) (dayTok i) := by
  intro p hocc
  unfold occAt at hocc
  match p with
  | 0 =>
    rw [List.drop_zero, dayTok_head] at hocc
    simp [isPre] at hocc
  | 1 =>
    rw [dayTok_head] at hocc
    simp [isPre] at hocc
  | (q + 2) =>
    exact hnot q hocc

/-! ### Strip and splitlines facts -/

theorem pyStrip_keep (A W : Str) (hW : ∀ c ∈ W, pyIsSpace c = true)
    (hhead : ∃ a A', A = a :: A' ∧ pyIsSpace a = false)
    (hlast : ∃ A'' z, A = A'' ++ [z] ∧ pyIsSpace z = false) :
    pyStrip (A ++ W) = A := by
  obtain ⟨a, A', hA1, ha⟩ := hhead
  obtain ⟨A'', z, hA2, hz⟩ := hlast
  unfold pyStrip
  have h1 : (A ++ W).dropWhile pyIsSpace = A ++ W := by
    rw [hA1, List.cons_append, List.dropWhile_cons, ha]
    simp
  rw [h1]
  have h2 : (A ++ W).reverse.dropWhile pyIsSpace = A.reverse := by
    rw [List.reverse_append, List.dropWhile_append_of_pos
      (by intro c hc; exact hW c (List.mem_reverse.mp hc))]
    rw [hA2, List.reverse_append]
    simp only [List.reverse_singleton, List.singleton_append]
    rw [List.dropWhile_cons, hz]
    simp
  rw [h2, List.reverse_reverse]

theorem pyStrip_eq_self (A : Str)
    (hhead : ∃ a A', A = a :: A' ∧ pyIsSpace a = false)
    (hlast : ∃ A'' z, A = A'' ++ [z] ∧ pyIsSpace z = false) :
    pyStrip A = A := by
  have := pyStrip_keep A [] (by simp) hhead hlast
  simpa using this

theorem pyStrip_length_le (s : Str) : (pyStrip s).length ≤ s.length := by
  unfold pyStrip
  have h1 := (@List.dropWhile_sublist Char s pyIsSpace).length_le
  have h2 := (@List.dropWhile_sublist Char ((s.dropWhile pyIsSpace).reverse) pyIsSpace).length_le
  simp only [List.length_reverse] at *
  omega

theorem strip_head_not_space {a : Char} {t' : Str}
    (h : pyStrip (a :: t') = a :: t') : pyIsSpace a = false := by
  cases hb : pyIsSpace a with
  | false => rfl
  | true =>
    exfalso
    have hlen := pyStrip_length_le (a :: t')
    have h1 : (a :: t').dropWhile pyIsSpace = t'.dropWhile pyIsSpace := by
      rw [List.dropWhile_cons, hb]
      simp
    have h2 : (pyStrip (a :: t')).length ≤ (t'.dropWhile pyIsSpace).length := by
      unfold pyStrip
      rw [h1]
      have := (@List.dropWhile_sublist Char ((t'.dropWhile pyIsSpace).reverse) pyIsSpace).length_le
      simp only [List.length_reverse] at *
      omega
    have h3 := (@List.dropWhile_sublist Char t' pyIsSpace).length_le
    rw [h] at h2
    simp only [List.length_cons] at h2
    omega

theorem strip_last_not_space {t A : Str} {z : Char}
    (h : pyStrip t = t) (hdecomp : t = A ++ [z]) : pyIsSpace z = false := by
  cases hb : pyIsSpace z with
  | false => rfl
  | true =>
    exfalso
    have h1 : t.dropWhile pyIsSpace = t := by
      have hsub := @List.dropWhile_sublist Char t pyIsSpace
      apply hsub.eq_of_length
      have hl1 := hsub.length_le
      have hl2 : (pyStrip t).length ≤ (t.dropWhile pyIsSpace).length := by
        unfold pyStrip
        have := (@List.dropWhile_sublist Char ((t.dropWhile pyIsSpace).reverse) pyIsSpace).length_le
        simp only [List.length_reverse] at *
        omega
      rw [h] at hl2
      omega
    have h2 : pyStrip t = (t.reverse.dropWhile pyIsSpace).reverse := by
      unfold pyStrip
      rw [h1]
    have h3 : t.reverse.dropWhile pyIsSpace = t.reverse.tail.dropWhile pyIsSpace := by
      rw [hdecomp, List.reverse_append]
      simp only [List.reverse_singleton, List.singleton_append]
      rw [List.dropWhile_cons, hb]
      simp
    have h4 := (@List.dropWhile_sublist Char (t.reverse.tail) pyIsSpace).length_le
    have h5 : t.reverse.tail.length = t.length - 1 := by simp
    have hne : t ≠ [] := by
      rw [hdecomp]
      exact (List.append_ne_nil_of_right_ne_nil A (List.cons_ne_nil z []))
    have hpos : 0 < t.length := List.length_pos.mpr hne
    have h6 : (pyStrip t).length ≤ t.length - 1 := by
      rw [h2, List.length_reverse, h3]
      omega
    rw [h] at h6
    omega

/-- `intercalate "\n"`, structured for easy unfolding. -/
def interNl : List Str → Str
  | [] => []
  | [l] => l
  | l :: r :: rest => l ++ '\n' :: interNl (r :: rest)

theorem splitlinesAux_char (cur : Str) (c : Char) (r : Str)
    (h1 : (c == '\n') = false) (h2 : (c == '\r') = false) :
    splitlinesAux cur (c :: r) = splitlinesAux (c :: cur) r := by
  cases r with
  | nil => simp [splitlinesAux, h1, h2]
  | cons c2 r' => simp [splitlinesAux, h1, h2]

theorem splitlinesAux_nl (cur : Str) (r : Str) :
    splitlinesAux cur ('\n' :: r) = cur.reverse :: splitlinesAux [] r := by
  cases r with
  | nil => simp [splitlinesAux]
  | cons c2 r' => simp [splitlinesAux]

/-- Characters of our constructed lines: no `\n`, no `\r`. -/
def cleanLine (l : Str) : Prop :=
  ∀ c ∈ l, (c == '\n') = false ∧ (c == '\r') = false

instance (l : Str) : Decidable (cleanLine l) := by
  unfold cleanLine
  infer_instance

theorem splitlinesAux_line (l : Str) (hl : cleanLine l) :
    ∀ (cur s : Str), splitlinesAux cur (l ++ s) = splitlinesAux (l.reverse ++ cur) s := by
  induction l with
  | nil => intro cur s; simp
  | cons c l' ih =>
    intro cur s
    have hc := hl c (List.mem_cons_self c l')
    rw [List.cons_append, splitlinesAux_char cur c (l' ++ s) hc.1 hc.2]
    rw [ih (fun x hx => hl x (List.mem_cons_of_mem c hx)) (c :: cur) s]
    simp

theorem pySplitlines_interNl : ∀ (lines : List Str),
    (∀ l ∈ lines, cleanLine l) → lines ≠ [] →
    (∀ h : lines ≠ [], lines.getLast h ≠ []) →
    pySplitlines (interNl lines) = lines := by
  intro lines
  induction lines with
  | nil => intro _ h _; exact absurd rfl h
  | cons l rest ih =>
    intro hclean hne hlast
    cases rest with
    | nil =>
      have hl : cleanLine l := hclean l (List.mem_cons_self l [])
      have hlne : l ≠ [] := hlast (by simp)
      show splitlinesAux [] (interNl [l]) = [l]
      have : interNl [l] = l := rfl
      rw [this]
      have := splitlinesAux_line l hl [] []
      rw [List.append_nil] at this
      rw [this]
      simp only [List.append_nil, splitlinesAux]
      rw [if_neg (by simpa using hlne)]
      simp
    | cons r rest' =>
      have hl : cleanLine l := hclean l (List.mem_cons_self l _)
      show splitlinesAux [] (interNl (l :: r :: rest')) = l :: r :: rest'
      have hun : interNl (l :: r :: rest') = l ++ '\n' :: interNl (r :: rest') := rfl
      rw [hun]
      have hline := splitlinesAux_line l hl [] ('\n' :: interNl (r :: rest'))
      rw [List.append_nil] at hline
      rw [hline, splitlinesAux_nl, List.reverse_reverse]
      have hrec := ih (fun x hx => hclean x (List.mem_cons_of_mem l hx))
        (List.cons_ne_nil r rest')
        (fun h => by
          have := hlast (List.cons_ne_nil l (r :: rest'))
          rwa [List.getLast_cons (List.cons_ne_nil r rest')] at this)
      rw [show splitlinesAux ([] : Str) (interNl (r :: rest'))
          = pySplitlines (interNl (r :: rest')) from rfl, hrec]

theorem joinNl_eq_interNl : ∀ (lines : List Str), lines ≠ [] →
    joinNl lines = interNl lines ++ ['\n'] := by
  intro lines
  induction lines with
  | nil => intro h; exact absurd rfl h
  | cons l rest ih =>
    intro _
    cases rest with
    | nil => simp [joinNl, interNl]
    | cons r rest' =>
      rw [joinNl_cons, ih (List.cons_ne_nil r rest')]
      show (l ++ ['\n']) ++ (interNl (r :: rest') ++ ['\n'])
        = (l ++ '\n' :: interNl (r :: rest')) ++ ['\n']
      simp

/-! ### C3: structure of the exported text -/

/-- The header line `Day i:` of the export format. -/
def hdrLine (i : Nat) : Str :=
  dayTok i ++ [':']

/-- The bullet line `- t` the export emits for a task text `t`. -/
def bulletLine (t : Str) : Str :=
  '-' :: ' ' :: t

/-- The lines of one exported day block: header, bullets, one blank line. -/
def blockLines (i : Nat) (ts : List Str) : List Str :=
  hdrLine i :: ts.map bulletLine ++ [[]]

/-- The lines of the exported blocks for consecutive day numbers from `a`. -/
def blocksLines : Nat → List (List Str) → List Str
  | _, [] => []
  | a, ts :: rest => blockLines a ts ++ blocksLines (a + 1) rest

/-- The stripped day segments the parser recovers from the exported text. -/
def strippedBlocks : Nat → List (List Str) → List Str
  | _, [] => []
  | a, ts :: rest => interNl (hdrLine a :: ts.map bulletLine) :: strippedBlocks (a + 1) rest

/-- The per-day task texts of an 8-slot task structure. -/
def textsOf (tl : List (List Task)) : List (List Str) :=
  tl.map (fun d => d.map (·.text))

/-- Task texts surviving the export/parse round trip unchanged: non-empty,
already stripped, single-line, not starting with `goal` (case-insensitively),
and containing no `Day 1` .. `Day 9` token. -/
def TextOK (t : Str) : Prop :=
  t ≠ [] ∧ pyStrip t = t
    ∧ (∀ c ∈ t, (c == '\n') = false ∧ (c == '\r') = false)
    ∧ isPre (("goal").toList) (lowerStr t) = false
    ∧ ∀ j ∈ Finset.Icc 1 9, pyFind t (dayTok j) 0 = none

instance (t : Str) : Decidable (TextOK t) := by
  unfold TextOK
  infer_instance

theorem exportDayBlock_eq (i : Nat) (day : List Task) :
    exportDayBlock i day = joinNl (blockLines i (day.map (·.text))) := by
  unfold exportDayBlock blockLines joinNl hdrLine bulletLine
  simp [List.map_map, Function.comp_def, List.cons_append]

theorem exportFrom_eq (tasks : List (List Task)) : ∀ (a : Nat),
    exportFrom a tasks = joinNl (blocksLines a (textsOf tasks)) := by
  induction tasks with
  | nil => intro a; rfl
  | cons day rest ih =>
    intro a
    show exportDayBlock a day ++ exportFrom (a + 1) rest
      = joinNl (blockLines a (day.map (·.text)) ++ blocksLines (a + 1) (textsOf rest))
    rw [joinNl_append, exportDayBlock_eq, ih (a + 1)]

theorem noOcc_joinNl {lines : List Str} {tok : Str} (htok : tok ≠ [])
    (hnl : '\n' ∉ tok) (hno : ∀ l ∈ lines, noOcc l tok) :
    noOcc (joinNl lines) tok := by
  intro p hocc
  have hocc' : occAt (joinNl lines ++ []) tok p := by
    rwa [List.append_nil]
  obtain ⟨-, h2⟩ := occ_joinNl_split lines htok hnl hno hocc'
  exact noOcc_nil htok _ h2

theorem textOK_noOcc {t : Str} (h : TextOK t) {i : Nat} (hi : i ∈ Finset.Icc 1 9) :
    noOcc t (dayTok i) :=
  noOcc_iff_pyFind_none.mpr (h.2.2.2.2 i hi)

theorem blockLines_noOcc {i j : Nat} {ts : List Str}
    (hi : i ∈ Finset.Icc 1 9) (hj : j ∈ Finset.Icc 1 8) (hne : i ≠ j)
    (hok : ∀ t ∈ ts, TextOK t) :
    ∀ l ∈ blockLines j ts, noOcc l (dayTok i) := by
  intro l hl
  unfold blockLines at hl
  rcases List.mem_cons.mp hl with rfl | hl2
  · exact header_noOcc hi hj hne
  · rcases List.mem_append.mp hl2 with hb | hnil
    · obtain ⟨t, ht, rfl⟩ := List.mem_map.mp hb
      exact bullet_noOcc (textOK_noOcc (hok t ht) hi)
    · rw [List.mem_singleton.mp hnil]
      exact noOcc_nil (dayTok_ne_nil i)

theorem blocksLines_noOcc {i : Nat} (hi : i ∈ Finset.Icc 1 9) :
    ∀ (tds : List (List Str)) (a : Nat), 1 ≤ a → a + tds.length ≤ 9 →
    (i < a ∨ a + tds.length ≤ i) →
    (∀ ts ∈ tds, ∀ t ∈ ts, TextOK t) →
    ∀ l ∈ blocksLines a tds, noOcc l (dayTok i) := by
  intro tds
  induction tds with
  | nil => intro a _ _ _ _ l hl; cases hl
  | cons ts rest ih =>
    intro a ha1 ha9 hout hok l hl
    simp only [blocksLines] at hl
    rcases List.mem_append.mp hl with h1 | h2
    · apply blockLines_noOcc hi
        (Finset.mem_Icc.mpr ⟨ha1, by simp at ha9; omega⟩)
        (by simp at hout ⊢; omega)
        (hok ts (List.mem_cons_self ts rest)) l h1
    · exact ih (a + 1) (by omega) (by simp at ha9 ⊢; omega)
        (by simp at hout ⊢; omega)
        (fun x hx => hok x (List.mem_cons_of_mem ts hx)) l h2

theorem blockLines_starts (i : Nat) (ts : List Str) :
    ∃ suf, joinNl (blockLines i ts) = dayTok i ++ suf := by
  refine ⟨([':'] ++ ['\n']) ++ joinNl (ts.map bulletLine ++ [[]]), ?_⟩
  show joinNl (hdrLine i :: (ts.map bulletLine ++ [[]])) = _
  rw [joinNl_cons, hdrLine]
  simp

/-- Position of the `Day i` token in a run of exported blocks: the first
occurrence is the header of block `i`, at the offset given by the combined
length of the earlier blocks. -/
theorem find_header : ∀ (tds : List (List Str)) (a i : Nat) (R : Str),
    1 ≤ a → a + tds.length ≤ 9 → a ≤ i → i < a + tds.length →
    (∀ ts ∈ tds, ∀ t ∈ ts, TextOK t) →
    pyFind (joinNl (blocksLines a tds) ++ R) (dayTok i) 0
      = some ((joinNl (blocksLines a (tds.take (i - a)))).length) := by
  intro tds
  induction tds with
  | nil =>
    intro a i R _ _ hai hilt _
    simp at hilt
    omega
  | cons ts rest ih =>
    intro a i R ha1 ha9 hai hilt hok
    have hlen9 : a + (ts :: rest).length ≤ 9 := ha9
    simp only [List.length_cons] at hlen9
    by_cases hia : i = a
    · subst hia
      obtain ⟨suf, hsuf⟩ := blockLines_starts i ts
      have hEsuf : joinNl (blocksLines i (ts :: rest)) ++ R
          = dayTok i ++ (suf ++ (joinNl (blocksLines (i + 1) rest) ++ R)) := by
        show joinNl (blockLines i ts ++ blocksLines (i + 1) rest) ++ R = _
        rw [joinNl_append, hsuf]
        simp [List.append_assoc]
      have hocc : occAt (joinNl (blocksLines i (ts :: rest)) ++ R) (dayTok i) 0 := by
        unfold occAt
        rw [List.drop_zero, hEsuf]
        exact isPre_self_append _ _
      have hfind := pyFind_some_of (Nat.zero_le 0) hocc (by omega)
      have htake : (ts :: rest).take (i - i) = [] := by simp
      rw [htake]
      simpa using hfind
    · have hlt : a < i := Nat.lt_of_le_of_ne hai (Ne.symm hia)
      have hilt' : i < a + rest.length + 1 := by
        simp only [List.length_cons] at hilt
        omega
      have hi9 : i ∈ Finset.Icc 1 9 := Finset.mem_Icc.mpr (by omega)
      have heq : joinNl (blocksLines a (ts :: rest)) ++ R
          = joinNl (blockLines a ts) ++ (joinNl (blocksLines (a + 1) rest) ++ R) := by
        show joinNl (blockLines a ts ++ blocksLines (a + 1) rest) ++ R = _
        rw [joinNl_append, List.append_assoc]
      rw [heq]
      rw [pyFind_skip (blockLines a ts) _ (dayTok i) (dayTok_ne_nil i)
        (dayTok_no_nl i hi9)
        (blockLines_noOcc hi9 (Finset.mem_Icc.mpr (by omega)) hia
          (hok ts (List.mem_cons_self ts rest)))]
      rw [ih (a + 1) i R (by omega) (by omega) (by omega) (by omega)
        (fun x hx => hok x (List.mem_cons_of_mem ts hx))]
      have htake : (ts :: rest).take (i - a) = ts :: rest.take (i - a - 1) := by
        conv_lhs => rw [show i - a = (i - a - 1) + 1 from by omega]
        rw [List.take_succ_cons]
      rw [htake]
      have harith : i - (a + 1) = i - a - 1 := by omega
      rw [harith]
      show some (_ + _) = _
      have hsplit : blocksLines a (ts :: rest.take (i - a - 1))
          = blockLines a ts ++ blocksLines (a + 1) (rest.take (i - a - 1)) := rfl
      rw [hsplit, joinNl_append, List.length_append]
      rw [Nat.add_comm]

theorem noOcc_blocks {i : Nat} (hi : i ∈ Finset.Icc 1 9)
    (tds : List (List Str)) (a : Nat) (ha1 : 1 ≤ a) (ha9 : a + tds.length ≤ 9)
    (hout : i < a ∨ a + tds.length ≤ i)
    (hok : ∀ ts ∈ tds, ∀ t ∈ ts, TextOK t) :
    noOcc (joinNl (blocksLines a tds)) (dayTok i) :=
  noOcc_joinNl (dayTok_ne_nil i) (dayTok_no_nl i hi)
    (blocksLines_noOcc hi tds a ha1 ha9 hout hok)

theorem blocksLines_split : ∀ (tds : List (List Str)) (a k : Nat), k ≤ tds.length →
    blocksLines a tds
      = blocksLines a (tds.take k) ++ blocksLines (a + k) (tds.drop k) := by
  intro tds
  induction tds with
  | nil => intro a k hk; simp at hk; subst hk; simp [blocksLines]
  | cons ts rest ih =>
    intro a k hk
    cases k with
    | zero => simp [blocksLines]
    | succ k' =>
      simp only [List.take_succ_cons, List.drop_succ_cons]
      show blockLines a ts ++ blocksLines (a + 1) rest = _
      rw [ih (a + 1) k' (by simpa using hk)]
      have harith : a + 1 + k' = a + (k' + 1) := by omega
      rw [harith]
      show blockLines a ts
          ++ (blocksLines (a + 1) (rest.take k') ++ blocksLines (a + (k' + 1)) (rest.drop k'))
        = (blockLines a ts ++ blocksLines (a + 1) (rest.take k'))
          ++ blocksLines (a + (k' + 1)) (rest.drop k')
      exact (List.append_assoc _ _ _).symm

theorem blocksLines_take_succ : ∀ (tds : List (List Str)) (a k : Nat),
    k < tds.length →
    blocksLines a (tds.take (k + 1))
      = blocksLines a (tds.take k) ++ blockLines (a + k) (tds.getD k []) := by
  intro tds
  induction tds with
  | nil => intro a k hk; simp at hk
  | cons ts rest ih =>
    intro a k hk
    cases k with
    | zero => simp [blocksLines]
    | succ k' =>
      simp only [List.take_succ_cons, List.getD_cons_succ]
      show blockLines a ts ++ blocksLines (a + 1) (rest.take (k' + 1)) = _
      rw [ih (a + 1) k' (by simpa using hk)]
      have harith : a + 1 + k' = a + (k' + 1) := by omega
      rw [harith]
      show blockLines a ts
          ++ (blocksLines (a + 1) (rest.take k') ++ blockLines (a + (k' + 1)) (rest.getD k' []))
        = (blockLines a ts ++ blocksLines (a + 1) (rest.take k'))
          ++ blockLines (a + (k' + 1)) (rest.getD k' [])
      exact (List.append_assoc _ _ _).symm

theorem drop_eq_getD_cons : ∀ (tds : List (List Str)) (k : Nat), k < tds.length →
    tds.drop k = tds.getD k [] :: tds.drop (k + 1) := by
  intro tds
  induction tds with
  | nil => intro k hk; simp at hk
  | cons ts rest ih =>
    intro k hk
    cases k with
    | zero => simp
    | succ k' => simpa using ih k' (by simpa using hk)

theorem blockLines_join_length_pos (i : Nat) (ts : List Str) :
    0 < (joinNl (blockLines i ts)).length := by
  show 0 < (joinNl (hdrLine i :: (ts.map bulletLine ++ [[]]))).length
  rw [joinNl_cons]
  simp

theorem interNl_cons_ne (x : Str) {rest : List Str} (h : rest ≠ []) :
    interNl (x :: rest) = x ++ '\n' :: interNl rest := by
  cases rest with
  | nil => exact absurd rfl h
  | cons y ys => rfl

theorem interNl_head (l : Str) (rest : List Str) :
    ∃ suf, interNl (l :: rest) = l ++ suf := by
  cases rest with
  | nil => exact ⟨[], by simp [interNl]⟩
  | cons y ys => exact ⟨'\n' :: interNl (y :: ys), rfl⟩

theorem interNl_last : ∀ (xs : List Str) (l : Str),
    ∃ P, interNl (xs ++ [l]) = P ++ l := by
  intro xs
  induction xs with
  | nil => intro l; exact ⟨[], by simp [interNl]⟩
  | cons x xs ih =>
    intro l
    obtain ⟨P, hP⟩ := ih l
    have hne : xs ++ [l] ≠ [] := by simp
    rw [List.cons_append, interNl_cons_ne x hne, hP]
    exact ⟨x ++ '\n' :: P, by simp⟩

/-- Decompose a non-empty list into its initial part and last element. -/
theorem exists_last {t : Str} (h : t ≠ []) : ∃ t' z, t = t' ++ [z] := by
  rcases List.eq_nil_or_concat t with rfl | ⟨L, b, hL⟩
  · exact absurd rfl h
  · exact ⟨L, b, by rw [hL, List.concat_eq_append]⟩

/-- Stripping one exported day block recovers the header and bullet lines
joined by single newlines. -/
theorem strip_block (i : Nat) (ts : List Str) (hok : ∀ t ∈ ts, TextOK t) :
    pyStrip (joinNl (blockLines i ts)) = interNl (hdrLine i :: ts.map bulletLine) := by
  have hlnsne : hdrLine i :: ts.map bulletLine ≠ [] := List.cons_ne_nil _ _
  have hB : joinNl (blockLines i ts)
      = interNl (hdrLine i :: ts.map bulletLine) ++ ['\n', '\n'] := by
    show joinNl ((hdrLine i :: ts.map bulletLine) ++ [[]]) = _
    rw [joinNl_append, joinNl_eq_interNl _ hlnsne]
    have hsingle : joinNl [[]] = ['\n'] := rfl
    rw [hsingle, List.append_assoc]
    rfl
  rw [hB]
  apply pyStrip_keep
  · intro c hc
    rcases List.mem_cons.mp hc with rfl | hc2
    · decide
    · rcases List.mem_singleton.mp hc2 with rfl
      decide
  · obtain ⟨suf, hsuf⟩ := interNl_head (hdrLine i) (ts.map bulletLine)
    have hhdr : hdrLine i = 'D' :: ('a' :: 'y' :: ' ' :: (natStr i ++ [':'])) := by
      rw [hdrLine, dayTok_head]
      rfl
    refine ⟨'D', ('a' :: 'y' :: ' ' :: (natStr i ++ [':'])) ++ suf, ?_, by decide⟩
    rw [hsuf, hhdr]
    rfl
  · rcases List.eq_nil_or_concat ts with rfl | ⟨ts', tl, hts⟩
    · refine ⟨dayTok i, ':', ?_, by decide⟩
      show interNl [hdrLine i] = dayTok i ++ [':']
      rfl
    · rw [hts, List.concat_eq_append]
      have hTl : TextOK tl := hok tl (by rw [hts, List.concat_eq_append]; simp)
      obtain ⟨t'', z, hz⟩ := exists_last hTl.1
      have hzs := strip_last_not_space hTl.2.1 hz
      have hmap : (hdrLine i :: (ts' ++ [tl]).map bulletLine)
          = (hdrLine i :: ts'.map bulletLine) ++ [bulletLine tl] := by
        simp
      rw [hmap]
      obtain ⟨P, hP⟩ := interNl_last (hdrLine i :: ts'.map bulletLine) (bulletLine tl)
      refine ⟨P ++ ('-' :: ' ' :: t''), z, ?_, hzs⟩
      rw [hP]
      unfold bulletLine
      rw [hz]
      simp

/-- The parser's segment for day `i` of the exported text is
the `i`-th block, stripped. -/
theorem daySeg_export_slice (tds : List (List Str)) (hlen : tds.length = 8)
    (hok : ∀ ts ∈ tds, ∀ t ∈ ts, TextOK t) (i : Nat) (hi1 : 1 ≤ i) (hi8 : i ≤ 8) :
    daySeg (joinNl (blocksLines 1 tds)) i
      = pyStrip (joinNl (blockLines i (tds.getD (i - 1) []))) := by
  have hk : i - 1 < tds.length := by omega
  have hsplitE : blocksLines 1 tds
      = blocksLines 1 (tds.take (i - 1))
        ++ (blockLines i (tds.getD (i - 1) [])
            ++ blocksLines (i + 1) (tds.drop i)) := by
    rw [blocksLines_split tds 1 (i - 1) (by omega)]
    rw [drop_eq_getD_cons tds (i - 1) hk]
    have h1 : (1 : Nat) + (i - 1) = i := by omega
    have h2 : i - 1 + 1 = i := by omega
    rw [h1, h2]
    rfl
  have hE : joinNl (blocksLines 1 tds)
      = joinNl (blocksLines 1 (tds.take (i - 1)))
        ++ (joinNl (blockLines i (tds.getD (i - 1) []))
            ++ joinNl (blocksLines (i + 1) (tds.drop i))) := by
    rw [hsplitE, joinNl_append, joinNl_append]
  have hfind : pyFind (joinNl (blocksLines 1 tds)) (dayTok i) 0
      = some (joinNl (blocksLines 1 (tds.take (i - 1)))).length := by
    have := find_header tds 1 i [] (by omega) (by omega) (by omega) (by omega) hok
    rw [List.append_nil] at this
    have harith : i - 1 = i - 1 := rfl
    simpa using this
  unfold daySeg
  simp only [hfind]
  by_cases hi7 : i < 8
  · have hfind2 : pyFind (joinNl (blocksLines 1 tds)) (dayTok (i + 1)) 0
        = some (joinNl (blocksLines 1 (tds.take i))).length := by
      have := find_header tds 1 (i + 1) [] (by omega) (by omega) (by omega)
        (by omega) hok
      rw [List.append_nil] at this
      have harith : i + 1 - 1 = i := by omega
      rw [harith] at this
      exact this
    have htakesucc : blocksLines 1 (tds.take i)
        = blocksLines 1 (tds.take (i - 1)) ++ blockLines i (tds.getD (i - 1) []) := by
      have h0 : i = (i - 1) + 1 := by omega
      conv_lhs => rw [h0]
      rw [blocksLines_take_succ tds 1 (i - 1) hk]
      have h1 : (1 : Nat) + (i - 1) = i := by omega
      rw [h1]
    have hlen2 : (joinNl (blocksLines 1 (tds.take i))).length
        = (joinNl (blocksLines 1 (tds.take (i - 1)))).length
          + (joinNl (blockLines i (tds.getD (i - 1) []))).length := by
      rw [htakesucc, joinNl_append, List.length_append]
    have hpos := blockLines_join_length_pos i (tds.getD (i - 1) [])
    have hmono : pyFind (joinNl (blocksLines 1 tds)) (dayTok (i + 1))
        ((joinNl (blocksLines 1 (tds.take (i - 1)))).length + 1)
        = some ((joinNl (blocksLines 1 (tds.take i))).length) :=
      pyFind_mono hfind2 (by omega)
    simp only [hmono]
    have hdrop : (joinNl (blocksLines 1 tds)).drop
        (joinNl (blocksLines 1 (tds.take (i - 1)))).length
        = joinNl (blockLines i (tds.getD (i - 1) []))
          ++ joinNl (blocksLines (i + 1) (tds.drop i)) := by
      rw [hE]
      exact List.drop_left' rfl
    rw [hdrop]
    have harith2 : (joinNl (blocksLines 1 (tds.take i))).length
        - (joinNl (blocksLines 1 (tds.take (i - 1)))).length
        = (joinNl (blockLines i (tds.getD (i - 1) []))).length := by omega
    rw [harith2, List.take_left' rfl]
  · have hi8' : i = 8 := by omega
    have hnone : pyFind (joinNl (blocksLines 1 tds)) (dayTok (i + 1)) 0 = none := by
      rw [hi8']
      apply noOcc_iff_pyFind_none.mp
      apply noOcc_blocks (by decide) tds 1 (by omega) (by omega) (by omega) hok
    simp only [pyFind_none_from hnone]
    have hdropnil : tds.drop i = [] := by
      apply List.drop_eq_nil_of_le
      omega
    have hdrop : (joinNl (blocksLines 1 tds)).drop
        (joinNl (blocksLines 1 (tds.take (i - 1)))).length
        = joinNl (blockLines i (tds.getD (i - 1) [])) := by
      rw [hE, hdropnil]
      have hnil : joinNl (blocksLines (i + 1) []) = [] := rfl
      rw [hnil, List.append_nil]
      exact List.drop_left' rfl
    rw [hdrop]

/-- The parser's segment for day `i` of the exported text, fully reduced. -/
theorem daySeg_export (tds : List (List Str)) (hlen : tds.length = 8)
    (hok : ∀ ts ∈ tds, ∀ t ∈ ts, TextOK t) (i : Nat) (hi1 : 1 ≤ i) (hi8 : i ≤ 8) :
    daySeg (joinNl (blocksLines 1 tds)) i
      = interNl (hdrLine i :: (tds.getD (i - 1) []).map bulletLine) := by
  rw [daySeg_export_slice tds hlen hok i hi1 hi8]
  apply strip_block
  intro t ht
  have hk : i - 1 < tds.length := by omega
  have hmem : tds.getD (i - 1) [] ∈ tds := by
    rw [List.getD_eq_getElem tds [] hk]
    exact List.getElem_mem hk
  exact hok _ hmem t ht

/-! ### Line processing of the recovered segments -/

theorem strip_hdr (i : Nat) : pyStrip (hdrLine i) = hdrLine i := by
  apply pyStrip_eq_self
  · refine ⟨'D', 'a' :: 'y' :: ' ' :: (natStr i ++ [':']), ?_, by decide⟩
    rw [hdrLine, dayTok_head]
    rfl
  · exact ⟨dayTok i, ':', rfl, by decide⟩

theorem lower_hdr_day (i : Nat) :
    isPre (("day").toList) (lowerStr (hdrLine i)) = true := by
  have h1 : hdrLine i = 'D' :: ('a' :: 'y' :: (' ' :: (natStr i ++ [':']))) := by
    rw [hdrLine, dayTok_head]
    rfl
  rw [h1]
  simp only [lowerStr, List.map_cons]
  simp [isPre]

theorem guard_hdr (i : Nat) : lineGuard (hdrLine i) = false := by
  unfold lineGuard
  rw [lower_hdr_day i]
  simp

theorem strip_bullet {t : Str} (h : TextOK t) :
    pyStrip (bulletLine t) = bulletLine t := by
  apply pyStrip_eq_self
  · exact ⟨'-', ' ' :: t, rfl, by decide⟩
  · obtain ⟨t'', z, hz⟩ := exists_last h.1
    have hzs := strip_last_not_space h.2.1 hz
    refine ⟨'-' :: ' ' :: t'', z, ?_, hzs⟩
    rw [bulletLine, hz]
    rfl

theorem guard_bullet {t : Str} (h : TextOK t) : lineGuard (bulletLine t) = true := by
  obtain ⟨hne, hstrip, hclean, hgoal, hfind⟩ := h
  unfold lineGuard bulletLine
  have h1 : lowerStr ('-' :: ' ' :: t) = '-' :: ' ' :: lowerStr t := by
    have hd : '-'.toLower = '-' := by decide
    have hs : ' '.toLower = ' ' := by decide
    simp only [lowerStr, List.map_cons, hd, hs]
  rw [h1]
  have h2 : isPre (("day").toList) ('-' :: ' ' :: lowerStr t) = false := by
    simp [isPre]
  have h3 : isPre (("- goal").toList) ('-' :: ' ' :: lowerStr t)
      = isPre (("goal").toList) (lowerStr t) := by
    simp [isPre]
  rw [h2, h3, hgoal]
  simp

theorem extract_bullet (t : Str) : extractT (bulletLine t) = .ok (pyStrip t) := by
  unfold extractT bulletLine
  rw [if_pos (by simp [isPre])]
  rfl

theorem procLines_bullets : ∀ (texts : List Str) (tid : Nat),
    (∀ t ∈ texts, TextOK t) →
    ∃ ts, procLines tid (texts.map bulletLine) = .ok (ts, tid + texts.length)
      ∧ ts.map (·.text) = texts := by
  intro texts
  induction texts with
  | nil => intro tid _; exact ⟨[], by simp [procLines], rfl⟩
  | cons t rest ih =>
    intro tid hok
    have hT := hok t (List.mem_cons_self t rest)
    obtain ⟨ts, hts, hmap⟩ := ih (tid + 1)
      (fun x hx => hok x (List.mem_cons_of_mem t hx))
    refine ⟨⟨tid, t, false⟩ :: ts, ?_, by simp [hmap]⟩
    show procLines tid (bulletLine t :: rest.map bulletLine) = _
    simp only [procLines, strip_bullet hT, guard_bullet hT, if_true,
      extract_bullet, hT.2.1]
    rw [if_neg (by simp [hT.1])]
    rw [hts]
    have harith : tid + 1 + rest.length = tid + (rest.length + 1) := by omega
    simp [harith]

theorem interNl_lns_ne_empty (i : Nat) (bullets : List Str) :
    (interNl (hdrLine i :: bullets)).isEmpty = false := by
  obtain ⟨suf, hsuf⟩ := interNl_head (hdrLine i) bullets
  rw [hsuf, hdrLine, dayTok_head]
  rfl

theorem hdr_clean : ∀ i ∈ Finset.Icc 1 8, cleanLine (hdrLine i) := by
  decide

theorem procDay_stripped (i : Nat) (ts : List Str) (tid : Nat)
    (hi1 : 1 ≤ i) (hi8 : i ≤ 8) (hok : ∀ t ∈ ts, TextOK t) :
    ∃ out, procDay tid (interNl (hdrLine i :: ts.map bulletLine))
        = .ok (out, tid + ts.length)
      ∧ out.map (·.text) = ts := by
  unfold procDay
  rw [interNl_lns_ne_empty i (ts.map bulletLine)]
  simp only [Bool.false_eq_true, if_false]
  have hclean : ∀ l ∈ hdrLine i :: ts.map bulletLine, cleanLine l := by
    intro l hl
    rcases List.mem_cons.mp hl with rfl | hl2
    · exact hdr_clean i (Finset.mem_Icc.mpr ⟨hi1, hi8⟩)
    · obtain ⟨t, ht, rfl⟩ := List.mem_map.mp hl2
      intro c hc
      rcases List.mem_cons.mp hc with rfl | hc2
      · exact ⟨by decide, by decide⟩
      · rcases List.mem_cons.mp hc2 with rfl | hc3
        · exact ⟨by decide, by decide⟩
        · exact (hok t ht).2.2.1 c hc3
  have hlastne : ∀ h : hdrLine i :: ts.map bulletLine ≠ [],
      (hdrLine i :: ts.map bulletLine).getLast h ≠ [] := by
    intro h
    have hmem := List.getLast_mem h
    rcases List.mem_cons.mp hmem with heq | hmem2
    · rw [heq, hdrLine, dayTok_head]
      exact List.cons_ne_nil _ _
    · obtain ⟨t, _, heq⟩ := List.mem_map.mp hmem2
      rw [← heq, bulletLine]
      exact List.cons_ne_nil _ _
  rw [pySplitlines_interNl _ hclean (List.cons_ne_nil _ _) hlastne]
  obtain ⟨out, hout, hmap⟩ := procLines_bullets ts tid hok
  refine ⟨out, ?_, hmap⟩
  simp only [procLines, strip_hdr i, guard_hdr i, Bool.false_eq_true, if_false]
  exact hout

theorem strippedBlocks_length : ∀ (tds : List (List Str)) (a : Nat),
    (strippedBlocks a tds).length = tds.length := by
  intro tds
  induction tds with
  | nil => intro a; rfl
  | cons ts rest ih => intro a; simp [strippedBlocks, ih]

theorem strippedBlocks_getD : ∀ (tds : List (List Str)) (a n : Nat),
    n < tds.length →
    (strippedBlocks a tds).getD n []
      = interNl (hdrLine (a + n) :: (tds.getD n []).map bulletLine) := by
  intro tds
  induction tds with
  | nil => intro a n hn; simp at hn
  | cons ts rest ih =>
    intro a n hn
    cases n with
    | zero => simp [strippedBlocks]
    | succ n' =>
      show (strippedBlocks (a + 1) rest).getD n' [] = _
      rw [ih (a + 1) n' (by simpa using hn)]
      have harith : a + 1 + n' = a + (n' + 1) := by omega
      rw [harith]
      rfl

theorem procDays_stripped : ∀ (tds : List (List Str)) (a tid : Nat),
    1 ≤ a → a + tds.length ≤ 9 →
    (∀ ts ∈ tds, ∀ t ∈ ts, TextOK t) →
    ∃ out, procDays tid (strippedBlocks a tds) = .ok out
      ∧ out.map (fun d => d.map (·.text)) = tds := by
  intro tds
  induction tds with
  | nil => intro a tid _ _ _; exact ⟨[], rfl, rfl⟩
  | cons ts rest ih =>
    intro a tid ha1 ha9 hok
    have hlen9 : a + rest.length + 1 ≤ 9 := by
      simp only [List.length_cons] at ha9
      omega
    obtain ⟨out1, hout1, hmap1⟩ := procDay_stripped a ts tid ha1 (by omega)
      (hok ts (List.mem_cons_self ts rest))
    obtain ⟨out2, hout2, hmap2⟩ := ih (a + 1) (tid + ts.length) (by omega)
      (by omega) (fun x hx => hok x (List.mem_cons_of_mem ts hx))
    refine ⟨out1 :: out2, ?_, by simp [hmap1, hmap2]⟩
    show procDays tid (interNl (hdrLine a :: ts.map bulletLine)
        :: strippedBlocks (a + 1) rest) = _
    simp only [procDays, hout1, hout2]

theorem range8_daySeg (tds : List (List Str)) (hlen : tds.length = 8)
    (hok : ∀ ts ∈ tds, ∀ t ∈ ts, TextOK t) :
    (List.range 8).map (fun k => daySeg (joinNl (blocksLines 1 tds)) (k + 1))
      = strippedBlocks 1 tds := by
  apply List.ext_getElem
  · simp [strippedBlocks_length, hlen]
  · intro n h1 h2
    have hn8 : n < 8 := by simpa using h1
    rw [List.getElem_map, List.getElem_range]
    rw [daySeg_export tds hlen hok (n + 1) (by omega) (by omega)]
    rw [← List.getD_eq_getElem (strippedBlocks 1 tds) [] h2]
    rw [strippedBlocks_getD tds 1 n (by omega)]
    have e1 : (1 : Nat) + n = n + 1 := by omega
    have e2 : n + 1 - 1 = n := by omega
    rw [e1, e2]

theorem padTo8_of_len8 {l : List (List Task)} (h : l.length = 8) :
    padTo8 l = l := by
  unfold padTo8
  rw [h]
  simp [List.take_of_length_le, h]

/-- C3 amended: exporting a project and re-parsing the exported text
reproduces the task texts of all 8 day-slots, provided every task text is
non-empty, stripped, single-line, does not begin case-insensitively with
`goal`, and contains none of the tokens `Day 1` .. `Day 9` (ids and done
flags are not preserved — export writes neither). -/
theorem export_parse_roundtrip (tasks : List (List Task)) (hlen : tasks.length = 8)
    (hok : ∀ day ∈ tasks, ∀ t ∈ day, TextOK t.text) :
    (parse_plan_to_tasks (exportTxt tasks)).map textsOf = .ok (textsOf tasks) := by
  have hok' : ∀ ts ∈ textsOf tasks, ∀ t ∈ ts, TextOK t := by
    intro ts hts t ht
    obtain ⟨day, hday, rfl⟩ := List.mem_map.mp hts
    obtain ⟨task, htask, rfl⟩ := List.mem_map.mp ht
    exact hok day hday task htask
  have hlen' : (textsOf tasks).length = 8 := by simp [textsOf, hlen]
  have hE : exportTxt tasks = joinNl (blocksLines 1 (textsOf tasks)) := by
    rw [exportTxt, exportFrom_eq]
  rw [hE]
  unfold parse_plan_to_tasks
  rw [range8_daySeg (textsOf tasks) hlen' hok']
  obtain ⟨out, hout, hmap⟩ := procDays_stripped (textsOf tasks) 1 0 (by omega)
    (by simp [hlen']) hok'
  simp only [hout]
  have houtlen : out.length = 8 := by
    have := congrArg List.length hmap
    simpa [hlen'] using this
  rw [padTo8_of_len8 houtlen]
  show Except.ok (textsOf out) = Except.ok (textsOf tasks)
  exact congrArg Except.ok hmap

/-- A project whose day-1 task text begins with `Goal`. -/
def cxGoalTasks : List (List Task) :=
  [[⟨0, ("Goal: finish").toList, false⟩], [], [], [], [], [], [], []]

/-- C3 counterexample: the round trip does not hold for every project — a
task text beginning with `Goal` is emitted as `- Goal: finish` and then
skipped by the parser's `- goal` guard, so the re-parsed day 1 is empty. -/
theorem export_roundtrip_cx :
    (parse_plan_to_tasks (exportTxt cxGoalTasks)).map textsOf
      = .ok [[], [], [], [], [], [], [], []]
    ∧ textsOf cxGoalTasks ≠ [[], [], [], [], [], [], [], []] := by
  exact ⟨rfl, by decide⟩

/-- Concrete well-behaved project for the C3 witness. -/
def okTasks : List (List Task) :=
  [[⟨3, ("write intro").toList, false⟩, ⟨7, ("revise draft").toList, true⟩],
   [], [], [], [], [], [],
   [⟨1, ("ship it").toList, false⟩]]

theorem export_parse_roundtrip_witness :
    (okTasks.length = 8 ∧ (∀ day ∈ okTasks, ∀ t ∈ day, TextOK t.text))
    ∧ (parse_plan_to_tasks (exportTxt okTasks)).map textsOf
        = .ok (textsOf okTasks) :=
  ⟨⟨rfl, by decide⟩, export_parse_roundtrip okTasks rfl (by decide)⟩

/-! ### C2: the offset-sort slicing rule versus the code -/

theorem filterMap_range_all {α : Type} (f : Nat → Option α) (g : Nat → α) :
    ∀ (m : Nat), (∀ j < m, f j = some (g j)) →
    (List.range m).filterMap f = (List.range m).map g := by
  intro m
  induction m with
  | zero => intro _; rfl
  | succ n ih =>
    intro h
    rw [List.range_succ, List.filterMap_append, List.map_append]
    rw [ih (fun j hj => h j (by omega))]
    simp [h n (by omega)]

theorem filterMap_range_none {α : Type} (f : Nat → Option α) :
    ∀ (n m : Nat), m ≤ n → (∀ j, m ≤ j → j < n → f j = none) →
    (List.range n).filterMap f = (List.range m).filterMap f := by
  intro n
  induction n with
  | zero =>
    intro m hm _
    interval_cases m
    rfl
  | succ n ih =>
    intro m hm h
    by_cases hmn : m = n + 1
    · subst hmn; rfl
    · rw [List.range_succ, List.filterMap_append]
      rw [ih m (by omega) (fun j h1 h2 => h j h1 (by omega))]
      simp [h n (by omega) (by omega)]

theorem foundDays_eq (text : Str) (k : Nat) (hk : k ≤ 8) (H : Nat → Nat)
    (hfound : ∀ i ∈ Finset.Icc 1 k, pyFind text (dayTok i) 0 = some (H i))
    (hnone : ∀ i ∈ Finset.Icc (k + 1) 9, pyFind text (dayTok i) 0 = none) :
    foundDays text = (List.range k).map (fun j => (j + 1, H (j + 1))) := by
  unfold foundDays
  have hn : ∀ j, k ≤ j → j < 8 →
      (pyFind text (dayTok (j + 1)) 0).map (fun off => (j + 1, off)) = none := by
    intro j h1 h2
    rw [hnone (j + 1) (Finset.mem_Icc.mpr ⟨by omega, by omega⟩)]
    rfl
  rw [filterMap_range_none _ 8 k hk hn]
  apply filterMap_range_all
  intro j hj
  rw [hfound (j + 1) (Finset.mem_Icc.mpr ⟨by omega, by omega⟩)]
  rfl

theorem sortByOff_of_chain : ∀ (l : List (Nat × Nat)),
    List.Chain' (fun a b : Nat × Nat => a.2 ≤ b.2) l → sortByOff l = l := by
  intro l
  induction l with
  | nil => intro _; rfl
  | cons x rest ih =>
    intro h
    show insertByOff x (sortByOff rest) = x :: rest
    rw [ih h.tail]
    cases rest with
    | nil => rfl
    | cons y r =>
      have hxy : x.2 ≤ y.2 := (List.chain'_cons.mp h).1
      simp [insertByOff, hxy]

theorem map_range_cons (H : Nat → Nat) (a m : Nat) :
    (List.range (m + 1)).map (fun j => (a + j, H (a + j)))
      = (a, H a) :: (List.range m).map (fun j => ((a + 1) + j, H ((a + 1) + j))) := by
  rw [List.range_succ_eq_map]
  simp only [List.map_cons, List.map_map, Nat.add_zero]
  refine congrArg _ ?_
  apply List.map_congr_left
  intro j _
  show (a + (j + 1), H (a + (j + 1))) = ((a + 1) + j, H ((a + 1) + j))
  have harith : a + (j + 1) = (a + 1) + j := by omega
  rw [harith]

theorem chain'_found (H : Nat → Nat) (k : Nat)
    (hmono : ∀ i ∈ Finset.Icc 1 k, ∀ j ∈ Finset.Icc 1 k, i < j → H i < H j) :
    List.Chain' (fun a b : Nat × Nat => a.2 ≤ b.2)
      ((List.range k).map (fun j => (j + 1, H (j + 1)))) := by
  rw [List.chain'_map]
  cases k with
  | zero => simp
  | succ n =>
    rw [List.chain'_range_succ]
    intro m hm
    have := hmono (m + 1) (Finset.mem_Icc.mpr ⟨by omega, by omega⟩)
      (m + 2) (Finset.mem_Icc.mpr ⟨by omega, by omega⟩) (by omega)
    exact Nat.le_of_lt this

theorem segsOf_lookup (text : Str) (H : Nat → Nat) :
    ∀ (m a q : Nat),
    ((segsOf text ((List.range m).map (fun j => (a + j, H (a + j))))).lookup q)
      = if a ≤ q ∧ q < a + m then
          some (if q + 1 < a + m
            then pyStrip ((text.drop (H q)).take (H (q + 1) - H q))
            else pyStrip (text.drop (H q)))
        else none := by
  intro m
  induction m with
  | zero =>
    intro a q
    rw [if_neg (by omega)]
    rfl
  | succ n ih =>
    intro a q
    rw [map_range_cons H a n]
    cases n with
    | zero =>
      show List.lookup q [(a, pyStrip (text.drop (H a)))] = _
      by_cases hqa : q = a
      · subst hqa
        rw [if_pos ⟨Nat.le_refl q, by omega⟩, if_neg (by omega)]
        simp [List.lookup]
      · have hbeq : (q == a) = false := by simp [hqa]
        rw [if_neg (by omega)]
        simp [List.lookup, hbeq]
    | succ n' =>
      rw [map_range_cons H (a + 1) n']
      show List.lookup q ((a, pyStrip ((text.drop (H a)).take (H (a + 1) - H a)))
          :: segsOf text ((a + 1, H (a + 1))
            :: (List.range n').map (fun j => ((a + 1 + 1) + j, H ((a + 1 + 1) + j))))) = _
      by_cases hqa : q = a
      · subst hqa
        rw [if_pos ⟨Nat.le_refl q, by omega⟩]
        rw [if_pos (show q + 1 < q + (n' + 1 + 1) from by omega)]
        simp [List.lookup]
      · have hbeq : (q == a) = false := by simp [hqa]
        have hstep : List.lookup q ((a, pyStrip ((text.drop (H a)).take (H (a + 1) - H a)))
            :: segsOf text ((a + 1, H (a + 1))
              :: (List.range n').map (fun j => ((a + 1 + 1) + j, H ((a + 1 + 1) + j)))))
            = List.lookup q (segsOf text ((a + 1, H (a + 1))
              :: (List.range n').map (fun j => ((a + 1 + 1) + j, H ((a + 1 + 1) + j))))) := by
          simp [List.lookup, hbeq]
        rw [hstep, ← map_range_cons H (a + 1) n', ih (a + 1) q]
        by_cases h1 : a + 1 ≤ q ∧ q < a + 1 + (n' + 1)
        · by_cases h2 : q + 1 < a + 1 + (n' + 1)
          · rw [if_pos h1, if_pos h2,
              if_pos (show a ≤ q ∧ q < a + (n' + 1 + 1) from by omega),
              if_pos (show q + 1 < a + (n' + 1 + 1) from by omega)]
          · rw [if_pos h1, if_neg h2,
              if_pos (show a ≤ q ∧ q < a + (n' + 1 + 1) from by omega),
              if_neg (show ¬(q + 1 < a + (n' + 1 + 1)) from by omega)]
        · rw [if_neg h1,
            if_neg (show ¬(a ≤ q ∧ q < a + (n' + 1 + 1)) from by omega)]

/-- C2 amended: the spec's offset-sort slicing rule agrees with the code
exactly when the found day tokens are numerically consecutive from 1 and
appear in ascending offset order; the code's segment for day `i` always ends
at the first occurrence of the literal token `Day i+1` after its own offset,
not at the next found day by offset. -/
theorem parse_eq_offsetRule_of_monotone (text : Str) (k : Nat) (hk : k ≤ 8)
    (H : Nat → Nat)
    (hfound : ∀ i ∈ Finset.Icc 1 k, pyFind text (dayTok i) 0 = some (H i))
    (hmono : ∀ i ∈ Finset.Icc 1 k, ∀ j ∈ Finset.Icc 1 k, i < j → H i < H j)
    (hnone : ∀ i ∈ Finset.Icc (k + 1) 9, pyFind text (dayTok i) 0 = none) :
    parse_plan_to_tasks text = parseOffsetRule text := by
  have hfoundEq := foundDays_eq text k hk H hfound hnone
  have hsort : sortByOff (foundDays text) = foundDays text := by
    rw [hfoundEq]
    exact sortByOff_of_chain _ (chain'_found H k hmono)
  have hdays : ∀ k' ∈ List.range 8,
      ((segsOf text (sortByOff (foundDays text))).lookup (k' + 1)).getD []
        = daySeg text (k' + 1) := by
    intro k' hk'
    have hk8 : k' < 8 := List.mem_range.mp hk'
    rw [hsort, hfoundEq]
    have hshift : (List.range k).map (fun j => (j + 1, H (j + 1)))
        = (List.range k).map (fun j => (1 + j, H (1 + j))) := by
      apply List.map_congr_left
      intro j _
      have harith : j + 1 = 1 + j := by omega
      rw [harith]
    rw [hshift, segsOf_lookup text H k 1 (k' + 1)]
    unfold daySeg
    by_cases hin : k' + 1 ≤ k
    · rw [if_pos (show 1 ≤ k' + 1 ∧ k' + 1 < 1 + k from by omega)]
      rw [hfound (k' + 1) (Finset.mem_Icc.mpr ⟨by omega, by omega⟩)]
      by_cases hlast : k' + 1 < k
      · have hnext : pyFind text (dayTok (k' + 1 + 1)) (H (k' + 1) + 1)
            = some (H (k' + 1 + 1)) := by
          apply pyFind_mono
          · have harith : k' + 1 + 1 = k' + 2 := by omega
            rw [harith]
            exact hfound (k' + 2) (Finset.mem_Icc.mpr ⟨by omega, by omega⟩)
          · have hlt := hmono (k' + 1) (Finset.mem_Icc.mpr ⟨by omega, by omega⟩)
              (k' + 1 + 1) (Finset.mem_Icc.mpr ⟨by omega, by omega⟩) (by omega)
            omega
        simp only [hnext]
        rw [if_pos (show k' + 1 + 1 < 1 + k from by omega)]
        rfl
      · have hknext : pyFind text (dayTok (k' + 1 + 1)) 0 = none := by
          have hn := hnone (k + 1) (Finset.mem_Icc.mpr ⟨Nat.le_refl _, by omega⟩)
          have harith : k' + 1 + 1 = k + 1 := by omega
          rw [harith]
          exact hn
        simp only [pyFind_none_from hknext]
        rw [if_neg (show ¬(k' + 1 + 1 < 1 + k) from by omega)]
        rfl
    · rw [if_neg (show ¬(1 ≤ k' + 1 ∧ k' + 1 < 1 + k) from by omega)]
      rw [hnone (k' + 1) (Finset.mem_Icc.mpr ⟨by omega, by omega⟩)]
      rfl
  have hdayseq : (List.range 8).map
        (fun k' => ((segsOf text (sortByOff (foundDays text))).lookup (k' + 1)).getD [])
      = (List.range 8).map (fun k' => daySeg text (k' + 1)) :=
    List.map_congr_left hdays
  show parse_plan_to_tasks text = parseOffsetRule text
  unfold parse_plan_to_tasks parseOffsetRule
  rw [← hdayseq]

/-- Plan text whose `Day` tokens appear in non-monotonic order. -/
def cx2 : Str := ("Day 2:\n- b\nDay 1:\n- a").toList

/-- C2 counterexample: with `Day 2` before `Day 1`, the code's day-2 segment
runs to the end of the text (the first `Day 3` occurrence is absent), so the
day-1 bullet is parsed a second time into day 2 — the offset-sort rule would
have ended day 2's segment at the offset of `Day 1`. -/
theorem parse_offset_rule_cx :
    parse_plan_to_tasks cx2
      = .ok [[Task.mk 0 ['a'] false],
             [Task.mk 1 ['b'] false, Task.mk 2 ['a'] false],
             [], [], [], [], [], []]
    ∧ parseOffsetRule cx2
      = .ok [[Task.mk 0 ['a'] false], [Task.mk 1 ['b'] false],
             [], [], [], [], [], []]
    ∧ [[Task.mk 0 ['a'] false],
       [Task.mk 1 ['b'] false, Task.mk 2 ['a'] false],
       [], [], [], [], [], []]
      ≠ [[Task.mk 0 ['a'] false], [Task.mk 1 ['b'] false],
         [], [], [], [], [], []] := by
  exact ⟨rfl, rfl, by decide⟩

/-- Monotone two-day text for the C2 witness. -/
def w2text : Str := ("Day 1:\n- a\nDay 2:\n- b").toList

/-- Header offsets of `w2text`. -/
def w2H : Nat → Nat := fun i => if i = 1 then 0 else 11

theorem parse_eq_offsetRule_witness :
    ((2 : Nat) ≤ 8
      ∧ (∀ i ∈ Finset.Icc 1 2, pyFind w2text (dayTok i) 0 = some (w2H i))
      ∧ (∀ i ∈ Finset.Icc 1 2, ∀ j ∈ Finset.Icc 1 2, i < j → w2H i < w2H j)
      ∧ (∀ i ∈ Finset.Icc (2 + 1) 9, pyFind w2text (dayTok i) 0 = none))
    ∧ parse_plan_to_tasks w2text = parseOffsetRule w2text :=
  ⟨⟨by omega, by decide, by decide, by decide⟩,
   parse_eq_offsetRule_of_monotone w2text 2 (by omega) w2H (by decide)
     (by decide) (by decide)⟩

end DayByDay
